import Mathlib

/-!
Verification of the segmented-axis tick layout engine of `egui_plot`
(files `bound.rs`, `broken_axis.rs`, `segmented_axis.rs`, `axis.rs`).

Shallow embedding conventions:
* `f64` values that are guaranteed non-NaN are modelled by `F`:
  either an exact rational or `±∞`.  Arithmetic that the source performs
  only on finite values is modelled by exact rational arithmetic.
* `f64::EPSILON` is the exact rational `2⁻⁵²`.
* `Vec<T>` is `List T`; the stable `sort_by` with a `partial_cmp`
  comparator (total on non-NaN inputs) is `List.insertionSort`.
-/

namespace EguiPlot

/-- Model of an IEEE `f64` that is not NaN: an exact rational, or `±∞`. -/
inductive F where
  | ninf : F
  | fin : ℚ → F
  | pinf : F
deriving DecidableEq

namespace F

/-- Rust `f64::is_finite` (no NaN in the model). -/
def isFinite : F → Bool
  | fin _ => true
  | _ => false

/-- Rust `f64::is_infinite`. -/
def isInfinite : F → Bool
  | fin _ => false
  | _ => true

/-- Rust `f64::is_sign_negative` (the model has no negative zero). -/
def isSignNegative : F → Bool
  | ninf => true
  | pinf => false
  | fin q => decide (q < 0)

/-- Rust `f64::is_sign_positive`. -/
def isSignPositive (x : F) : Bool := !x.isSignNegative

/-- The order of `partial_cmp` restricted to non-NaN values: `-∞ < finite < +∞`. -/
def le : F → F → Prop
  | ninf, _ => True
  | fin _, ninf => False
  | fin a, fin b => a ≤ b
  | fin _, pinf => True
  | pinf, pinf => True
  | pinf, _ => False

instance decLe : DecidableRel le
  | ninf, ninf => isTrue trivial
  | ninf, fin _ => isTrue trivial
  | ninf, pinf => isTrue trivial
  | fin _, ninf => isFalse fun h => h
  | fin a, fin b => inferInstanceAs (Decidable (a ≤ b))
  | fin _, pinf => isTrue trivial
  | pinf, ninf => isFalse fun h => h
  | pinf, fin _ => isFalse fun h => h
  | pinf, pinf => isTrue trivial

theorem le_refl (a : F) : le a a := by
  cases a <;> simp [le]

theorem le_trans {a b c : F} (h₁ : le a b) (h₂ : le b c) : le a c := by
  cases a <;> cases b <;> cases c <;> simp_all [le]
  exact h₁.trans h₂

theorem le_antisymm {a b : F} (h₁ : le a b) (h₂ : le b a) : a = b := by
  cases a <;> cases b <;> simp_all [le]
  exact h₁.antisymm h₂

theorem le_total (a b : F) : le a b ∨ le b a := by
  cases a <;> cases b <;> simp [le]
  exact Rat.le_total

instance : LinearOrder F where
  le := le
  le_refl := le_refl
  le_trans := fun _ _ _ h₁ h₂ => le_trans h₁ h₂
  le_antisymm := fun _ _ h₁ h₂ => le_antisymm h₁ h₂
  le_total := le_total
  decidableLE := decLe

end F

/-- `Interval` from `bound.rs`: a numeric interval with optional `±∞` on
either side.  The source field `end` is a Lean keyword and is written
`«end»` here. -/
structure Interval where
  start : F
  «end» : F
deriving DecidableEq

namespace Interval

/-- `Interval::len` from `bound.rs`.  The `if`-chain of the source is
rendered as a case split on the two bounds:
* both infinite: `+∞` when `start.is_sign_negative && end.is_sign_positive`
  (i.e. the `(-∞, +∞)` case), else `0`;
* exactly one infinite: `+∞`;
* both finite: `(end - start).max(0.0)`. -/
def len (iv : Interval) : F :=
  match iv.start, iv.«end» with
  | .ninf, .pinf => .pinf
  | .ninf, .ninf => .fin 0
  | .pinf, .pinf => .fin 0
  | .pinf, .ninf => .fin 0
  | .ninf, .fin _ => .pinf
  | .pinf, .fin _ => .pinf
  | .fin _, .ninf => .pinf
  | .fin _, .pinf => .pinf
  | .fin a, .fin b => .fin (max (b - a) 0)

/-- `Interval::new`: swaps the endpoints when given in reverse order. -/
def new (a b : F) : Interval :=
  if a ≤ b then ⟨a, b⟩ else ⟨b, a⟩

/-- `Interval::is_empty`: `start == end`. -/
def is_empty (iv : Interval) : Prop := iv.start = iv.«end»

instance : DecidablePred is_empty :=
  fun iv => inferInstanceAs (Decidable (iv.start = iv.«end»))

/-- `Interval::contains`: `x >= start && x <= end`. -/
def contains (iv : Interval) (x : F) : Prop :=
  iv.start ≤ x ∧ x ≤ iv.«end»

end Interval

/-- C8, counterexample: the interval with `start = +∞`, `end = -∞` has both
bounds infinite with opposite signs, yet `len` returns `0`, not `+∞` as the
claim states for opposite-sign infinite bounds. -/
theorem C8_counterexample :
    (Interval.mk F.pinf F.ninf).start.isInfinite = true ∧
    (Interval.mk F.pinf F.ninf).«end».isInfinite = true ∧
    (Interval.mk F.pinf F.ninf).start.isSignNegative ≠
      (Interval.mk F.pinf F.ninf).«end».isSignNegative ∧
    (Interval.mk F.pinf F.ninf).len = F.fin 0 ∧
    (Interval.mk F.pinf F.ninf).len ≠ F.pinf := by
  refine ⟨rfl, rfl, by decide, rfl, by decide⟩

/-- C8, amended: `len` returns `+∞` if exactly one bound is infinite; `+∞`
if the bounds are `(-∞, +∞)` in that orientation; `0` for any other pair of
infinite bounds (same sign, or the inverted `(+∞, -∞)`); otherwise
`(end - start)` clamped to be `≥ 0`. -/
theorem C8_amended (iv : Interval) :
    (iv.start.isInfinite = true → iv.«end».isInfinite = false → iv.len = F.pinf) ∧
    (iv.start.isInfinite = false → iv.«end».isInfinite = true → iv.len = F.pinf) ∧
    (iv.start = F.ninf → iv.«end» = F.pinf → iv.len = F.pinf) ∧
    (iv.start.isInfinite = true → iv.«end».isInfinite = true →
      ¬(iv.start = F.ninf ∧ iv.«end» = F.pinf) → iv.len = F.fin 0) ∧
    (∀ a b : ℚ, iv.start = F.fin a → iv.«end» = F.fin b →
      iv.len = F.fin (max (b - a) 0)) := by
  obtain ⟨s, e⟩ := iv
  cases s <;> cases e <;>
    simp [Interval.len, F.isInfinite]

/-- C8 witness: at `(-∞, 5]` exactly one bound is infinite and `len = +∞`. -/
theorem C8_witness :
    (Interval.mk F.ninf (F.fin 5)).start.isInfinite = true ∧
    (Interval.mk F.ninf (F.fin 5)).«end».isInfinite = false ∧
    (Interval.mk F.ninf (F.fin 5)).len = F.pinf :=
  ⟨rfl, rfl, (C8_amended ⟨F.ninf, F.fin 5⟩).1 rfl rfl⟩

/-- C9: `Interval::new(a, b) = Interval::new(b, a)` for finite `a`, `b`, and
every constructed interval satisfies `start ≤ end`. -/
theorem C9_new_symm_wf :
    (∀ a b : F, a.isFinite = true → b.isFinite = true →
      Interval.new a b = Interval.new b a) ∧
    (∀ a b : F, (Interval.new a b).start ≤ (Interval.new a b).«end») := by
  constructor
  · intro a b _ _
    unfold Interval.new
    by_cases h₁ : a ≤ b <;> by_cases h₂ : b ≤ a <;> simp [h₁, h₂]
    · exact ⟨F.le_antisymm h₁ h₂, F.le_antisymm h₂ h₁⟩
    · exact absurd (F.le_total a b) (by push_neg; exact ⟨h₁, h₂⟩)
  · intro a b
    unfold Interval.new
    by_cases h : a ≤ b <;> simp [h]
    rcases F.le_total a b with h' | h'
    · exact absurd h' h
    · exact h'

/-- C9 witness: `new 2 1 = new 1 2` at finite inputs. -/
theorem C9_witness :
    (F.fin 2).isFinite = true ∧ (F.fin 1).isFinite = true ∧
    Interval.new (F.fin 2) (F.fin 1) = Interval.new (F.fin 1) (F.fin 2) :=
  ⟨rfl, rfl, C9_new_symm_wf.1 _ _ rfl rfl⟩

/-- Sort key of the axis constructors: ascending by `start`, via
`partial_cmp` (total on non-NaN bounds, `unwrap_or(Equal)` unreachable). -/
def startLe (a b : Interval) : Prop := a.start ≤ b.start

instance : DecidableRel startLe :=
  fun a b => inferInstanceAs (Decidable (a.start ≤ b.start))

/-- The merge loop of the axis constructors.  The accumulator is kept in
reverse order so that the source's `merged.last_mut()` update is a head
update; the caller reverses the result. -/
def mergeLoop : List Interval → List Interval → List Interval
  | acc, [] => acc
  | acc, iv :: rest =>
    match acc with
    | last :: acc' =>
      if iv.start ≤ last.«end» then
        mergeLoop ({ start := last.start, «end» := max last.«end» iv.«end» } :: acc') rest
      else
        mergeLoop (iv :: last :: acc') rest
    | [] => mergeLoop [iv] rest

/-- Constructor body appearing verbatim in both `BrokenXAxis::new`
(broken_axis.rs) and `SegmentedAxis::new` (segmented_axis.rs):
1. drop empty intervals, 2. sort ascending by `start`,
3. merge overlapping / touching intervals. -/
def sanitizeSegments (segments : List Interval) : List Interval :=
  let segments := segments.filter fun iv => decide ¬iv.is_empty
  let segments := segments.insertionSort startLe
  (mergeLoop [] segments).reverse

/-- `BrokenXAxis` from broken_axis.rs. -/
structure BrokenXAxis where
  segments : List Interval
  gap_px : ℚ
deriving DecidableEq

/-- `BrokenXAxis::new`. -/
def BrokenXAxis.new (segments : List Interval) (gap_px : ℚ) : BrokenXAxis :=
  ⟨sanitizeSegments segments, gap_px⟩

/-- `BrokenXAxis::is_multi_segment`. -/
def BrokenXAxis.is_multi_segment (ax : BrokenXAxis) : Prop :=
  ax.segments.length > 1

/-- `SegmentedAxis` from segmented_axis.rs. -/
structure SegmentedAxis where
  segments : List Interval
  gap_px : ℚ
deriving DecidableEq

/-- `SegmentedAxis::new`. -/
def SegmentedAxis.new (segments : List Interval) (gap_px : ℚ) : SegmentedAxis :=
  ⟨sanitizeSegments segments, gap_px⟩

/-- `SegmentedAxis::is_multi_segment`. -/
def SegmentedAxis.is_multi_segment (ax : SegmentedAxis) : Prop :=
  ax.segments.length > 1

theorem mergeLoop_chain (rest : List Interval) :
    ∀ acc : List Interval, acc.Chain' (fun a b => b.«end» < a.start) →
      (mergeLoop acc rest).Chain' (fun a b => b.«end» < a.start) := by
  induction rest with
  | nil => intro acc h; simpa [mergeLoop] using h
  | cons iv rest ih =>
    intro acc h
    match acc with
    | [] =>
      simp only [mergeLoop]
      exact ih [iv] (List.chain'_singleton _)
    | last :: acc' =>
      simp only [mergeLoop]
      rw [List.chain'_cons'] at h
      by_cases hle : iv.start ≤ last.«end»
      · rw [if_pos hle]
        apply ih
        exact List.chain'_cons'.mpr ⟨h.1, h.2⟩
      · rw [if_neg hle]
        apply ih
        exact List.chain'_cons.mpr ⟨not_le.mp hle, List.chain'_cons'.mpr ⟨h.1, h.2⟩⟩

theorem mergeLoop_proper (rest : List Interval) :
    ∀ acc : List Interval,
      (∀ x ∈ acc, x.start < x.«end») → (∀ x ∈ rest, x.start < x.«end») →
      ∀ x ∈ mergeLoop acc rest, x.start < x.«end» := by
  induction rest with
  | nil => intro acc ha _; simpa [mergeLoop] using ha
  | cons iv rest ih =>
    intro acc ha hr
    have hiv : iv.start < iv.«end» := hr iv (List.mem_cons_self _ _)
    have hr' : ∀ x ∈ rest, x.start < x.«end» :=
      fun x hx => hr x (List.mem_cons_of_mem _ hx)
    match acc with
    | [] =>
      simp only [mergeLoop]
      exact ih [iv] (by simpa using hiv) hr'
    | last :: acc' =>
      simp only [mergeLoop]
      have hlast : last.start < last.«end» := ha last (List.mem_cons_self _ _)
      have ha' : ∀ x ∈ acc', x.start < x.«end» :=
        fun x hx => ha x (List.mem_cons_of_mem _ hx)
      by_cases hle : iv.start ≤ last.«end»
      · rw [if_pos hle]
        apply ih _ _ hr'
        intro x hx
        rcases List.mem_cons.mp hx with rfl | hx'
        · exact hlast.trans_le (le_max_left _ _)
        · exact ha' x hx'
      · rw [if_neg hle]
        apply ih _ _ hr'
        intro x hx
        rcases List.mem_cons.mp hx with rfl | hx'
        · exact hiv
        · rcases List.mem_cons.mp hx' with rfl | hx''
          · exact hlast
          · exact ha' x hx''

theorem sanitize_chain (ivs : List Interval) :
    (sanitizeSegments ivs).Chain' (fun a b => a.«end» < b.start) := by
  unfold sanitizeSegments
  rw [List.chain'_reverse]
  exact mergeLoop_chain _ [] List.chain'_nil

theorem sanitize_proper (ivs : List Interval)
    (h : ∀ iv ∈ ivs, iv.start ≤ iv.«end») :
    ∀ x ∈ sanitizeSegments ivs, x.start < x.«end» := by
  unfold sanitizeSegments
  intro x hx
  rw [List.mem_reverse] at hx
  refine mergeLoop_proper _ [] (by simp) ?_ x hx
  intro y hy
  rw [List.mem_insertionSort] at hy
  rw [List.mem_filter] at hy
  have h₁ : y.start ≤ y.«end» := h y hy.1
  have h₂ : ¬y.is_empty := by simpa using hy.2
  exact lt_of_le_of_ne h₁ h₂

theorem chain_proper_pairwise {l : List Interval}
    (hc : l.Chain' (fun a b => a.«end» < b.start))
    (hp : ∀ x ∈ l, x.start < x.«end») :
    l.Pairwise (fun a b => a.«end» < b.start) := by
  induction l with
  | nil => simp
  | cons a l ih =>
    rw [List.chain'_cons'] at hc
    obtain ⟨hhead, hc⟩ := hc
    have hpl : ∀ x ∈ l, x.start < x.«end» :=
      fun x hx => hp x (List.mem_cons_of_mem _ hx)
    have hPl := ih hc hpl
    refine List.Pairwise.cons ?_ hPl
    intro b hb
    cases l with
    | nil => cases hb
    | cons y l' =>
      have hay : a.«end» < y.start := hhead y rfl
      rcases List.mem_cons.mp hb with rfl | hb'
      · exact hay
      · have hyb : y.«end» < b.start := (List.pairwise_cons.mp hPl).1 b hb'
        have hy : y.start < y.«end» := hpl y (List.mem_cons_self _ _)
        exact hay.trans (hy.trans hyb)

/-- C2: both constructors sanitize via drop-empties / sort-by-start /
merge-overlaps; the result satisfies `segments[i].end ≤ segments[i+1].start`
for all adjacent pairs; when the inputs are well-formed (`start ≤ end`) the
starts are strictly increasing, no empty interval survives, and the
segments are pairwise disjoint; the overlapping inputs `[0,10]` and
`[5,15]` merge to the single segment `[0,15]`. -/
theorem C2_sanitize_invariants (ivs : List Interval) (g : ℚ) :
    (BrokenXAxis.new ivs g).segments = sanitizeSegments ivs ∧
    (SegmentedAxis.new ivs g).segments = sanitizeSegments ivs ∧
    (sanitizeSegments ivs).Chain' (fun a b => a.«end» ≤ b.start) ∧
    ((∀ iv ∈ ivs, iv.start ≤ iv.«end») →
      (sanitizeSegments ivs).Chain' (fun a b => a.start < b.start) ∧
      (∀ seg ∈ sanitizeSegments ivs, ¬seg.is_empty) ∧
      ∀ x : F, (sanitizeSegments ivs).Pairwise
        (fun a b => ¬(a.contains x ∧ b.contains x))) ∧
    (SegmentedAxis.new [⟨F.fin 0, F.fin 10⟩, ⟨F.fin 5, F.fin 15⟩] g).segments
      = [⟨F.fin 0, F.fin 15⟩] := by
  have hex : sanitizeSegments [⟨F.fin 0, F.fin 10⟩, ⟨F.fin 5, F.fin 15⟩]
      = [⟨F.fin 0, F.fin 15⟩] := by decide
  refine ⟨rfl, rfl, (sanitize_chain ivs).imp fun _ _ h => h.le, fun hwf => ?_, hex⟩
  have hprop := sanitize_proper ivs hwf
  have hpw := chain_proper_pairwise (sanitize_chain ivs) hprop
  refine ⟨?_, ?_, ?_⟩
  · refine List.Pairwise.chain' (List.Pairwise.imp_of_mem ?_ hpw)
    intro a b ha _ hab
    exact (hprop a ha).trans hab
  · intro seg hseg he
    have h1 := hprop seg hseg
    simp only [Interval.is_empty] at he
    rw [he] at h1
    exact lt_irrefl _ h1
  · intro x
    refine hpw.imp ?_
    intro a b hab hcon
    exact absurd (hcon.1.2.trans_lt (hab.trans_le hcon.2.1)) (lt_irrefl x)

/-- C2 witness: the well-formedness hypothesis holds at the concrete inputs
`[0,10]`, `[5,15]`, and their sanitized segments have strictly increasing
starts. -/
theorem C2_witness :
    (∀ iv ∈ [Interval.mk (F.fin 0) (F.fin 10), Interval.mk (F.fin 5) (F.fin 15)],
      iv.start ≤ iv.«end») ∧
    (sanitizeSegments
        [Interval.mk (F.fin 0) (F.fin 10), Interval.mk (F.fin 5) (F.fin 15)]).Chain'
      (fun a b => a.start < b.start) :=
  ⟨by decide, ((C2_sanitize_invariants _ 0).2.2.2.1 (by decide)).1⟩

/-- `f64::EPSILON`, exactly. -/
def eps : ℚ := 1 / 2 ^ 52

/-- `nice_step` (identical private functions in broken_axis.rs and
segmented_axis.rs).  `10.0_f64.powf(step.log10().floor())` is modelled
exactly as `10 ^ ⌊log₁₀ step⌋`, i.e. `10 ^ Int.log 10 step`. -/
def nice_step (step : ℚ) : ℚ :=
  let pow10 : ℚ := 10 ^ Int.log 10 step
  let mant := step / pow10
  let nice_mant : ℚ :=
    if mant < 3 / 2 then 1
    else if mant < 7 / 2 then 2
    else if mant < 15 / 2 then 5
    else 10
  nice_mant * pow10

theorem ten_zpow_pos (e : ℤ) : (0 : ℚ) < 10 ^ e := zpow_pos (by norm_num) e

theorem log10_eq {q : ℚ} {e : ℤ} (h1 : (10 : ℚ) ^ e ≤ q)
    (h2 : q < (10 : ℚ) ^ (e + 1)) : Int.log 10 q = e := by
  have hq : 0 < q := lt_of_lt_of_le (ten_zpow_pos e) h1
  have hle : e ≤ Int.log 10 q := by
    rw [← Int.zpow_le_iff_le_log (by norm_num) hq]
    exact_mod_cast h1
  have hlt : Int.log 10 q < e + 1 := by
    rw [← Int.lt_zpow_iff_log_lt (by norm_num) hq]
    exact_mod_cast h2
  omega

theorem log10_zpow (e : ℤ) : Int.log 10 ((10 : ℚ) ^ e) = e := by
  refine log10_eq (le_refl _) ?_
  rw [zpow_add_one₀ (by norm_num : (10 : ℚ) ≠ 0)]
  nlinarith [ten_zpow_pos e]

theorem mant_bounds {step : ℚ} (h : 0 < step) :
    1 ≤ step / 10 ^ Int.log 10 step ∧ step / 10 ^ Int.log 10 step < 10 := by
  have hp := ten_zpow_pos (Int.log 10 step)
  constructor
  · rw [le_div_iff₀ hp, one_mul]
    exact_mod_cast Int.zpow_log_le_self (by norm_num : 1 < 10) h
  · rw [div_lt_iff₀ hp]
    have h2 := Int.lt_zpow_succ_log_self (by norm_num : (1:ℕ) < 10) step
    calc step < (10 : ℚ) ^ (Int.log 10 step + 1) := by exact_mod_cast h2
    _ = 10 * 10 ^ Int.log 10 step := by
        rw [zpow_add_one₀ (by norm_num : (10 : ℚ) ≠ 0)]; ring

theorem log10_mul_zpow {c : ℚ} (h1 : 1 ≤ c) (h2 : c < 10) (e : ℤ) :
    Int.log 10 (c * 10 ^ e) = e := by
  refine log10_eq ?_ ?_
  · calc (10 : ℚ) ^ e = 1 * 10 ^ e := (one_mul _).symm
    _ ≤ c * 10 ^ e := mul_le_mul_of_nonneg_right h1 (ten_zpow_pos e).le
  · rw [zpow_add_one₀ (by norm_num : (10 : ℚ) ≠ 0)]
    calc c * 10 ^ e < 10 * 10 ^ e := mul_lt_mul_of_pos_right h2 (ten_zpow_pos e)
    _ = 10 ^ e * 10 := mul_comm _ _

theorem nice_step_eval {c : ℚ} (h1 : 1 ≤ c) (h2 : c < 10) (e : ℤ) :
    nice_step (c * 10 ^ e) =
      (if c < 3 / 2 then 1 else if c < 7 / 2 then 2
       else if c < 15 / 2 then (5 : ℚ) else 10) * 10 ^ e := by
  simp only [nice_step, log10_mul_zpow h1 h2 e,
    mul_div_cancel_right₀ _ (ten_zpow_pos e).ne']

theorem nice_step_fixed (e : ℤ) :
    nice_step ((10 : ℚ) ^ e) = 10 ^ e ∧
    nice_step (2 * (10 : ℚ) ^ e) = 2 * 10 ^ e ∧
    nice_step (5 * (10 : ℚ) ^ e) = 5 * 10 ^ e := by
  refine ⟨?_, ?_, ?_⟩
  · rw [show ((10 : ℚ) ^ e) = 1 * 10 ^ e from (one_mul _).symm,
      nice_step_eval (by norm_num) (by norm_num) e]
    norm_num
  · rw [nice_step_eval (by norm_num) (by norm_num) e]
    norm_num
  · rw [nice_step_eval (by norm_num) (by norm_num) e]
    norm_num

/-- C5: for positive `step`, `nice_step` returns a value whose mantissa
relative to `10 ^ ⌊log₁₀ ·⌋` lies in `{1, 2, 5, 10}`, with the snapping
thresholds 1.5 / 3.5 / 7.5; and `nice_step` is idempotent on the
representative values `{1, 2, 5, 10} · 10 ^ k`. -/
theorem C5_nice_step :
    (∀ step : ℚ, 0 < step →
      nice_step step / 10 ^ Int.log 10 (nice_step step) ∈
        ({1, 2, 5, 10} : Set ℚ)) ∧
    (∀ c ∈ ({1, 2, 5, 10} : Set ℚ), ∀ k : ℤ,
      nice_step (nice_step (c * 10 ^ k)) = nice_step (c * 10 ^ k)) := by
  constructor
  · intro step h
    have hne := (ten_zpow_pos (Int.log 10 step)).ne'
    by_cases c1 : step / 10 ^ Int.log 10 step < 3 / 2
    · have key : nice_step step = 1 * 10 ^ Int.log 10 step := by
        simp only [nice_step, if_pos c1]
      rw [key, one_mul, log10_zpow, div_self hne]
      simp
    · by_cases c2 : step / 10 ^ Int.log 10 step < 7 / 2
      · have key : nice_step step = 2 * 10 ^ Int.log 10 step := by
          simp only [nice_step, if_neg c1, if_pos c2]
        rw [key, log10_mul_zpow (by norm_num) (by norm_num) _,
          mul_div_cancel_right₀ _ hne]
        simp
      · by_cases c3 : step / 10 ^ Int.log 10 step < 15 / 2
        · have key : nice_step step = 5 * 10 ^ Int.log 10 step := by
            simp only [nice_step, if_neg c1, if_neg c2, if_pos c3]
          rw [key, log10_mul_zpow (by norm_num) (by norm_num) _,
            mul_div_cancel_right₀ _ hne]
          simp
        · have key : nice_step step = 10 * 10 ^ Int.log 10 step := by
            simp only [nice_step, if_neg c1, if_neg c2, if_neg c3]
          have h10 : (10 : ℚ) * 10 ^ Int.log 10 step
              = 10 ^ (Int.log 10 step + 1) := by
            rw [zpow_add_one₀ (by norm_num : (10 : ℚ) ≠ 0)]; ring
          rw [key, h10, log10_zpow, div_self (ten_zpow_pos (Int.log 10 step + 1)).ne']
          simp
  · intro c hc k
    simp only [Set.mem_insert_iff, Set.mem_singleton_iff] at hc
    rcases hc with rfl | rfl | rfl | rfl
    · rw [one_mul, (nice_step_fixed k).1, (nice_step_fixed k).1]
    · rw [(nice_step_fixed k).2.1, (nice_step_fixed k).2.1]
    · rw [(nice_step_fixed k).2.2, (nice_step_fixed k).2.2]
    · have h10 : (10 : ℚ) * 10 ^ k = 10 ^ (k + 1) := by
        rw [zpow_add_one₀ (by norm_num : (10 : ℚ) ≠ 0)]; ring
      rw [h10, (nice_step_fixed (k + 1)).1, (nice_step_fixed (k + 1)).1]

/-- C5 witness: at `step = 3`, the hypothesis `0 < 3` holds and the
snapped mantissa lies in `{1, 2, 5, 10}`. -/
theorem C5_witness :
    (0 : ℚ) < 3 ∧
    nice_step 3 / 10 ^ Int.log 10 (nice_step 3) ∈ ({1, 2, 5, 10} : Set ℚ) :=
  ⟨by norm_num, C5_nice_step.1 3 (by norm_num)⟩

theorem nice_step_pos (step : ℚ) : 0 < nice_step step := by
  have hp := ten_zpow_pos (Int.log 10 step)
  simp only [nice_step]
  split_ifs <;> nlinarith

@[simp] theorem F.fin_le_fin {a b : ℚ} : (F.fin a ≤ F.fin b) ↔ a ≤ b := Iff.rfl

/-- Raw step computation shared by both `segment_ticks` variants:
`approx_steps = (span / step_hint.max(f64::EPSILON)).max(1.0)`,
`raw_step = span / approx_steps`. -/
def rawStepOf (step_hint lo hi : ℚ) : ℚ :=
  let span := hi - lo
  let approx_steps := max (span / max step_hint eps) 1
  span / approx_steps

theorem rawStepOf_pos {lo hi : ℚ} (hint : ℚ) (h : lo < hi) :
    0 < rawStepOf hint lo hi := by
  unfold rawStepOf
  have h1 : (0 : ℚ) < max (( hi - lo) / max hint eps) 1 :=
    lt_of_lt_of_le one_pos (le_max_right _ _)
  exact div_pos (by linarith) h1

/-- The tick loop of `BrokenXAxis::segment_ticks`:
`let mut t = start_tick; while t <= hi + f64::EPSILON { ticks.push(t); t += nice; }`.
The `0 < nice` conjunct only serves termination; it always holds at the
call site because `nice_step` is positive (`nice_step_pos`). -/
def tickAccum (hi nice t : ℚ) : List ℚ :=
  if h : 0 < nice ∧ t ≤ hi + eps then
    t :: tickAccum hi nice (t + nice)
  else []
termination_by (⌊(hi + eps - t) / nice⌋ + 1).toNat
decreasing_by
  have hn : nice ≠ 0 := h.1.ne'
  have hx : (hi + eps - (t + nice)) / nice = (hi + eps - t) / nice - 1 := by
    rw [show hi + eps - (t + nice) = hi + eps - t - nice by ring, sub_div,
      div_self hn]
  have hf : (0 : ℚ) ≤ (hi + eps - t) / nice :=
    div_nonneg (by linarith [h.2]) h.1.le
  have h0 : 0 ≤ ⌊(hi + eps - t) / nice⌋ := Int.floor_nonneg.mpr hf
  rw [hx, Int.floor_sub_one]
  omega

theorem tickAccum_step {hi nice t : ℚ} (h1 : 0 < nice) (h2 : t ≤ hi + eps) :
    tickAccum hi nice t = t :: tickAccum hi nice (t + nice) := by
  rw [tickAccum]
  exact dif_pos ⟨h1, h2⟩

theorem tickAccum_stop {hi nice t : ℚ} (h2 : ¬t ≤ hi + eps) :
    tickAccum hi nice t = [] := by
  rw [tickAccum]
  exact dif_neg fun hc => h2 hc.2

/-- The tick loop of `SegmentedAxis::segment_ticks`:
`loop { let t = start_tick + (i as f64) * nice; if t > hi + f64::EPSILON
{ break; } ticks.push(t); i += 1; }`.  As in `tickAccum`, the `0 < nice`
conjunct only serves termination. -/
def tickIndexed (start_tick hi nice : ℚ) (i : ℕ) : List ℚ :=
  if h : 0 < nice ∧ start_tick + (i : ℚ) * nice ≤ hi + eps then
    (start_tick + (i : ℚ) * nice) :: tickIndexed start_tick hi nice (i + 1)
  else []
termination_by (⌊(hi + eps - start_tick) / nice⌋ + 1 - i).toNat
decreasing_by
  have hle : (i : ℚ) ≤ (hi + eps - start_tick) / nice := by
    rw [le_div_iff₀ h.1]
    linarith [h.2]
  have hi' : (i : ℤ) ≤ ⌊(hi + eps - start_tick) / nice⌋ :=
    Int.le_floor.mpr (by exact_mod_cast hle)
  omega

theorem tickIndexed_step {start_tick hi nice : ℚ} {i : ℕ} (h1 : 0 < nice)
    (h2 : start_tick + (i : ℚ) * nice ≤ hi + eps) :
    tickIndexed start_tick hi nice i =
      (start_tick + (i : ℚ) * nice) :: tickIndexed start_tick hi nice (i + 1) := by
  rw [tickIndexed]
  exact dif_pos ⟨h1, h2⟩

theorem tickIndexed_stop {start_tick hi nice : ℚ} {i : ℕ}
    (h2 : ¬start_tick + (i : ℚ) * nice ≤ hi + eps) :
    tickIndexed start_tick hi nice i = [] := by
  rw [tickIndexed]
  exact dif_neg fun hc => h2 hc.2

/-- The guard `!lo.is_finite() || !hi.is_finite() || hi <= lo` shared by
both `segment_ticks` variants. -/
def Interval.degenerate (seg : Interval) : Prop :=
  seg.start.isFinite = false ∨ seg.«end».isFinite = false ∨
    seg.«end» ≤ seg.start

instance : DecidablePred Interval.degenerate := fun seg =>
  inferInstanceAs (Decidable (seg.start.isFinite = false ∨
    seg.«end».isFinite = false ∨ seg.«end» ≤ seg.start))

/-- Boundary forcing of `BrokenXAxis::segment_ticks`:
`if !ticks.contains(&lo) { ticks.insert(0, lo); }`. -/
def forceLoMem (lo : ℚ) (ticks : List ℚ) : List ℚ :=
  if lo ∈ ticks then ticks else lo :: ticks

/-- Boundary forcing of `BrokenXAxis::segment_ticks`:
`if !ticks.contains(&hi) { ticks.push(hi); }`. -/
def forceHiMem (hi : ℚ) (ticks : List ℚ) : List ℚ :=
  if hi ∈ ticks then ticks else ticks ++ [hi]

/-- Boundary forcing of `SegmentedAxis::segment_ticks`:
`if ticks.first().copied() != Some(lo) { ticks.insert(0, lo); }`. -/
def forceLoHead (lo : ℚ) (ticks : List ℚ) : List ℚ :=
  if ticks.head? = some lo then ticks else lo :: ticks

/-- Boundary forcing of `SegmentedAxis::segment_ticks`:
`if ticks.last().copied() != Some(hi) { ticks.push(hi); }`. -/
def forceHiLast (hi : ℚ) (ticks : List ℚ) : List ℚ :=
  if ticks.getLast? = some hi then ticks else ticks ++ [hi]

/-- Per-segment body of `BrokenXAxis::segment_ticks` (broken_axis.rs):
guard, local nice step, tick loop, boundary forcing via `ticks.contains`. -/
def brokenTicksSeg (step_hint : ℚ) (seg : Interval) : List ℚ :=
  match seg.start, seg.«end» with
  | F.fin lo, F.fin hi =>
    if hi ≤ lo then []
    else
      forceHiMem hi (forceLoMem lo
        (tickAccum hi (nice_step (rawStepOf step_hint lo hi))
          ((⌈lo / nice_step (rawStepOf step_hint lo hi)⌉ : ℚ) *
            nice_step (rawStepOf step_hint lo hi))))
  | _, _ => []

/-- `BrokenXAxis::segment_ticks`: one tick list per segment, each computed
from that segment alone. -/
def BrokenXAxis.segment_ticks (ax : BrokenXAxis) (step_hint : ℚ) :
    List (List ℚ) :=
  ax.segments.map (brokenTicksSeg step_hint)

/-- One step of the first pass of `SegmentedAxis::segment_ticks`:
skip degenerate segments, keep the running maximum raw step. -/
def maxRawFold (step_hint m : ℚ) (seg : Interval) : ℚ :=
  match seg.start, seg.«end» with
  | F.fin lo, F.fin hi =>
    if hi ≤ lo then m
    else if m < rawStepOf step_hint lo hi then rawStepOf step_hint lo hi else m
  | _, _ => m

/-- First pass of `SegmentedAxis::segment_ticks`: maximum raw step over all
valid segments, starting from `0.0`. -/
def maxRawStep (segs : List Interval) (step_hint : ℚ) : ℚ :=
  segs.foldl (maxRawFold step_hint) 0

/-- Per-segment body of the second pass of `SegmentedAxis::segment_ticks`,
given the shared `nice` value.  The source's `end_tick` and `steps` only
size the vector allocation and do not affect the contents. -/
def uniformTicksSeg (nice : ℚ) (seg : Interval) : List ℚ :=
  match seg.start, seg.«end» with
  | F.fin lo, F.fin hi =>
    if hi ≤ lo then []
    else
      forceHiLast hi (forceLoHead lo
        (tickIndexed ((⌈lo / nice⌉ : ℚ) * nice) hi nice 0))
  | _, _ => []

/-- `SegmentedAxis::segment_ticks`: uniform nice step computed from the
maximum raw step; if that maximum is `0.0`, every segment gets an empty
list. -/
def SegmentedAxis.segment_ticks (ax : SegmentedAxis) (step_hint : ℚ) :
    List (List ℚ) :=
  let max_raw_step := maxRawStep ax.segments step_hint
  if max_raw_step = 0 then List.replicate ax.segments.length []
  else ax.segments.map (uniformTicksSeg (nice_step max_raw_step))

theorem brokenTicksSeg_degenerate {seg : Interval} (hint : ℚ)
    (h : seg.degenerate) : brokenTicksSeg hint seg = [] := by
  obtain ⟨s, e⟩ := seg
  cases s <;> cases e <;>
    simp_all [brokenTicksSeg, Interval.degenerate, F.isFinite]

theorem uniformTicksSeg_degenerate {seg : Interval} (nice : ℚ)
    (h : seg.degenerate) : uniformTicksSeg nice seg = [] := by
  obtain ⟨s, e⟩ := seg
  cases s <;> cases e <;>
    simp_all [uniformTicksSeg, Interval.degenerate, F.isFinite]

theorem maxRawStep_all_degenerate (hint : ℚ) :
    ∀ segs : List Interval, (∀ seg ∈ segs, seg.degenerate) →
      ∀ m : ℚ, segs.foldl (maxRawFold hint) m = m := by
  intro segs
  induction segs with
  | nil => intro _ m; rfl
  | cons seg segs ih =>
    intro h m
    have hstep : maxRawFold hint m seg = m := by
      have hd := h seg (List.mem_cons_self _ _)
      obtain ⟨s, e⟩ := seg
      cases s <;> cases e <;>
        simp_all [maxRawFold, Interval.degenerate, F.isFinite]
    rw [List.foldl_cons, hstep]
    exact ih (fun x hx => h x (List.mem_cons_of_mem _ hx)) m

/-- C7: both `segment_ticks` variants are total, returning exactly one tick
list per stored segment; a degenerate segment (non-finite bound or
`end <= start`) contributes an empty list while every other segment's list
is a function of that segment (and, in the uniform variant, of the shared
nice step) alone; and in the uniform variant, when no segment yields a
positive raw step every segment gets an empty list. -/
theorem C7_degenerate_segments (ax : BrokenXAxis) (ax2 : SegmentedAxis)
    (hint : ℚ) :
    (ax.segment_ticks hint).length = ax.segments.length ∧
    (ax2.segment_ticks hint).length = ax2.segments.length ∧
    (∀ i : ℕ, ∀ seg, ax.segments[i]? = some seg →
      (ax.segment_ticks hint)[i]? = some (brokenTicksSeg hint seg)) ∧
    (∀ i : ℕ, ∀ seg, ax.segments[i]? = some seg → seg.degenerate →
      (ax.segment_ticks hint)[i]? = some []) ∧
    (∀ i : ℕ, ∀ seg, ax2.segments[i]? = some seg → seg.degenerate →
      (ax2.segment_ticks hint)[i]? = some []) ∧
    (maxRawStep ax2.segments hint ≠ 0 →
      ∀ i : ℕ, ∀ seg, ax2.segments[i]? = some seg →
        (ax2.segment_ticks hint)[i]? =
          some (uniformTicksSeg (nice_step (maxRawStep ax2.segments hint)) seg)) ∧
    (maxRawStep ax2.segments hint = 0 →
      ax2.segment_ticks hint = List.replicate ax2.segments.length []) ∧
    ((∀ seg ∈ ax2.segments, seg.degenerate) →
      maxRawStep ax2.segments hint = 0) := by
  have hmap : ∀ i : ℕ, ∀ seg, ax.segments[i]? = some seg →
      (ax.segment_ticks hint)[i]? = some (brokenTicksSeg hint seg) := by
    intro i seg hseg
    unfold BrokenXAxis.segment_ticks
    rw [List.getElem?_map, hseg, Option.map_some']
  refine ⟨?_, ?_, hmap, ?_, ?_, ?_, ?_, ?_⟩
  · unfold BrokenXAxis.segment_ticks
    exact List.length_map _ _
  · unfold SegmentedAxis.segment_ticks
    by_cases h0 : maxRawStep ax2.segments hint = 0
    · rw [if_pos h0, List.length_replicate]
    · rw [if_neg h0, List.length_map]
  · intro i seg hseg hdeg
    rw [hmap i seg hseg, brokenTicksSeg_degenerate hint hdeg]
  · intro i seg hseg hdeg
    unfold SegmentedAxis.segment_ticks
    by_cases h0 : maxRawStep ax2.segments hint = 0
    · rw [if_pos h0]
      have hlen : i < ax2.segments.length := by
        exact List.getElem?_eq_some_iff.mp hseg |>.choose
      rw [List.getElem?_replicate, if_pos hlen]
    · rw [if_neg h0, List.getElem?_map, hseg, Option.map_some',
        uniformTicksSeg_degenerate _ hdeg]
  · intro h0 i seg hseg
    unfold SegmentedAxis.segment_ticks
    rw [if_neg h0, List.getElem?_map, hseg, Option.map_some']
  · intro h0
    unfold SegmentedAxis.segment_ticks
    rw [if_pos h0]
  · intro hall
    exact maxRawStep_all_degenerate hint ax2.segments hall 0

/-- C7 witness: a concrete axis with one valid and one inverted segment;
the inverted segment yields an empty list while the valid one is computed
from itself. -/
theorem C7_witness :
    (Interval.mk (F.fin 7) (F.fin 3)).degenerate ∧
    ((BrokenXAxis.mk [Interval.mk (F.fin 0) (F.fin 1),
        Interval.mk (F.fin 7) (F.fin 3)] 0).segments[1]? =
      some (Interval.mk (F.fin 7) (F.fin 3))) ∧
    ((BrokenXAxis.mk [Interval.mk (F.fin 0) (F.fin 1),
        Interval.mk (F.fin 7) (F.fin 3)] 0).segment_ticks 1)[1]? = some [] :=
  ⟨by decide, by decide,
    (C7_degenerate_segments
        (BrokenXAxis.mk [Interval.mk (F.fin 0) (F.fin 1),
          Interval.mk (F.fin 7) (F.fin 3)] 0)
        (SegmentedAxis.mk [] 0) 1).2.2.2.1 1 (Interval.mk (F.fin 7) (F.fin 3))
      (by decide) (by decide)⟩

/-- C6: uniform-step variant on segments `[0,200]` and `[800,1000]` with
`step_hint = 100`: ticks at multiples of 100 within each segment plus the
exact boundaries; segment 2 is anchored at its own boundary 800,
independent of segment 1's phase. -/
theorem C6_uniform_scenario :
    (SegmentedAxis.mk [Interval.mk (F.fin 0) (F.fin 200),
        Interval.mk (F.fin 800) (F.fin 1000)] 0).segment_ticks 100 =
      [[0, 100, 200], [800, 900, 1000]] := by
  have hraw1 : rawStepOf 100 0 200 = 100 := by
    norm_num [rawStepOf, max_def, eps]
  have hraw2 : rawStepOf 100 800 1000 = 100 := by
    norm_num [rawStepOf, max_def, eps]
  have hmax : maxRawStep [Interval.mk (F.fin 0) (F.fin 200),
      Interval.mk (F.fin 800) (F.fin 1000)] 100 = 100 := by
    unfold maxRawStep
    simp only [List.foldl_cons, List.foldl_nil, maxRawFold, hraw1, hraw2]
    norm_num
  have hnice : nice_step 100 = 100 := by
    rw [show (100 : ℚ) = 1 * 10 ^ (2 : ℤ) by norm_num,
      nice_step_eval (by norm_num) (by norm_num)]
    norm_num
  have ht1 : tickIndexed 0 200 100 0 = [0, 100, 200] := by
    rw [tickIndexed_step (by norm_num) (by push_cast; norm_num [eps]),
      tickIndexed_step (by norm_num) (by push_cast; norm_num [eps]),
      tickIndexed_step (by norm_num) (by push_cast; norm_num [eps]),
      tickIndexed_stop (by push_cast; norm_num [eps])]
    push_cast
    norm_num
  have ht2 : tickIndexed 800 1000 100 0 = [800, 900, 1000] := by
    rw [tickIndexed_step (by norm_num) (by push_cast; norm_num [eps]),
      tickIndexed_step (by norm_num) (by push_cast; norm_num [eps]),
      tickIndexed_step (by norm_num) (by push_cast; norm_num [eps]),
      tickIndexed_stop (by push_cast; norm_num [eps])]
    push_cast
    norm_num
  have hseg1 : uniformTicksSeg 100 (Interval.mk (F.fin 0) (F.fin 200))
      = [0, 100, 200] := by
    simp only [uniformTicksSeg]
    rw [if_neg (by norm_num : ¬(200 : ℚ) ≤ 0),
      show ((⌈(0 : ℚ) / 100⌉ : ℚ) * 100) = 0 by norm_num, ht1]
    decide
  have hseg2 : uniformTicksSeg 100 (Interval.mk (F.fin 800) (F.fin 1000))
      = [800, 900, 1000] := by
    simp only [uniformTicksSeg]
    rw [if_neg (by norm_num : ¬(1000 : ℚ) ≤ 800),
      show ((⌈(800 : ℚ) / 100⌉ : ℚ) * 100) = 800 by norm_num, ht2]
    decide
  simp only [SegmentedAxis.segment_ticks]
  rw [hmax, if_neg (by norm_num : ¬(100 : ℚ) = 0), hnice]
  simp only [List.map_cons, List.map_nil, hseg1, hseg2]

theorem tickAccum_mem {hi nice : ℚ} (hn : 0 < nice) (t x : ℚ)
    (hx : x ∈ tickAccum hi nice t) :
    ∃ i : ℕ, x = t + (i : ℚ) * nice ∧ x ≤ hi + eps := by
  rcases le_or_lt t (hi + eps) with hc | hc
  · rw [tickAccum_step hn hc] at hx
    rcases List.mem_cons.mp hx with rfl | hx'
    · exact ⟨0, by push_cast; ring, hc⟩
    · obtain ⟨i, h1, h2⟩ := tickAccum_mem hn (t + nice) x hx'
      refine ⟨i + 1, ?_, h2⟩
      push_cast
      linarith
  · rw [tickAccum_stop (not_le.mpr hc)] at hx
    cases hx
termination_by (⌊(hi + eps - t) / nice⌋ + 1).toNat
decreasing_by
  have hx1 : (hi + eps - (t + nice)) / nice = (hi + eps - t) / nice - 1 := by
    rw [show hi + eps - (t + nice) = hi + eps - t - nice by ring, sub_div,
      div_self hn.ne']
  have h0 : 0 ≤ ⌊(hi + eps - t) / nice⌋ :=
    Int.floor_nonneg.mpr (div_nonneg (by linarith) hn.le)
  rw [hx1, Int.floor_sub_one]
  omega

theorem tickAccum_sorted {hi nice : ℚ} (hn : 0 < nice) (t : ℚ) :
    (tickAccum hi nice t).Sorted (· < ·) := by
  rcases le_or_lt t (hi + eps) with hc | hc
  · rw [tickAccum_step hn hc]
    refine List.sorted_cons.mpr ⟨?_, tickAccum_sorted hn (t + nice)⟩
    intro b hb
    obtain ⟨i, h1, _⟩ := tickAccum_mem hn (t + nice) b hb
    have h2 : (0 : ℚ) ≤ (i : ℚ) * nice := mul_nonneg (Nat.cast_nonneg i) hn.le
    linarith
  · rw [tickAccum_stop (not_le.mpr hc)]
    exact List.sorted_nil
termination_by (⌊(hi + eps - t) / nice⌋ + 1).toNat
decreasing_by
  have hx1 : (hi + eps - (t + nice)) / nice = (hi + eps - t) / nice - 1 := by
    rw [show hi + eps - (t + nice) = hi + eps - t - nice by ring, sub_div,
      div_self hn.ne']
  have h0 : 0 ≤ ⌊(hi + eps - t) / nice⌋ :=
    Int.floor_nonneg.mpr (div_nonneg (by linarith) hn.le)
  rw [hx1, Int.floor_sub_one]
  omega

theorem tickIndexed_mem {start_tick hi nice : ℚ} (hn : 0 < nice) (i : ℕ)
    (x : ℚ) (hx : x ∈ tickIndexed start_tick hi nice i) :
    ∃ j : ℕ, i ≤ j ∧ x = start_tick + (j : ℚ) * nice ∧ x ≤ hi + eps := by
  rcases le_or_lt (start_tick + (i : ℚ) * nice) (hi + eps) with hc | hc
  · rw [tickIndexed_step hn hc] at hx
    rcases List.mem_cons.mp hx with rfl | hx'
    · exact ⟨i, le_refl _, rfl, hc⟩
    · obtain ⟨j, hj, h1, h2⟩ := tickIndexed_mem hn (i + 1) x hx'
      exact ⟨j, by omega, h1, h2⟩
  · rw [tickIndexed_stop (not_le.mpr hc)] at hx
    cases hx
termination_by (⌊(hi + eps - start_tick) / nice⌋ + 1 - i).toNat
decreasing_by
  have hle : (i : ℚ) ≤ (hi + eps - start_tick) / nice := by
    rw [le_div_iff₀ hn]
    linarith
  have hi' : (i : ℤ) ≤ ⌊(hi + eps - start_tick) / nice⌋ :=
    Int.le_floor.mpr (by exact_mod_cast hle)
  omega

theorem tickIndexed_sorted {start_tick hi nice : ℚ} (hn : 0 < nice) (i : ℕ) :
    (tickIndexed start_tick hi nice i).Sorted (· < ·) := by
  rcases le_or_lt (start_tick + (i : ℚ) * nice) (hi + eps) with hc | hc
  · rw [tickIndexed_step hn hc]
    refine List.sorted_cons.mpr ⟨?_, tickIndexed_sorted hn (i + 1)⟩
    intro b hb
    obtain ⟨j, hj, h1, _⟩ := tickIndexed_mem hn (i + 1) b hb
    have h2 : (i : ℚ) * nice < (j : ℚ) * nice := by
      apply mul_lt_mul_of_pos_right _ hn
      exact_mod_cast (by omega : i < j)
    linarith
  · rw [tickIndexed_stop (not_le.mpr hc)]
    exact List.sorted_nil
termination_by (⌊(hi + eps - start_tick) / nice⌋ + 1 - i).toNat
decreasing_by
  have hle : (i : ℚ) ≤ (hi + eps - start_tick) / nice := by
    rw [le_div_iff₀ hn]
    linarith
  have hi' : (i : ℤ) ≤ ⌊(hi + eps - start_tick) / nice⌋ :=
    Int.le_floor.mpr (by exact_mod_cast hle)
  omega

/-- The per-segment guarantee of claim C1: sorted ascending, both
endpoints present exactly once, no value outside `[lo, hi]`. -/
def tickProps (lo hi : ℚ) (ts : List ℚ) : Prop :=
  ts.Sorted (· < ·) ∧ ts.count lo = 1 ∧ ts.count hi = 1 ∧
    ∀ x ∈ ts, lo ≤ x ∧ x ≤ hi

theorem sorted_append_one {L : List ℚ} {b : ℚ} (hs : L.Sorted (· < ·))
    (h : ∀ x ∈ L, x < b) : (L ++ [b]).Sorted (· < ·) := by
  induction L with
  | nil => simp
  | cons a L ih =>
    rw [List.cons_append, List.sorted_cons]
    obtain ⟨ha, hL⟩ := List.sorted_cons.mp hs
    refine ⟨?_, ih hL fun x hx => h x (List.mem_cons_of_mem _ hx)⟩
    intro c hc
    rcases List.mem_append.mp hc with hc' | hc'
    · exact ha c hc'
    · rw [List.mem_singleton] at hc'
      subst hc'
      exact h a (List.mem_cons_self _ _)

theorem sorted_getLast_max {L : List ℚ} (hs : L.Sorted (· < ·)) :
    L = [] ∨ ∃ b, L.getLast? = some b ∧ b ∈ L ∧ ∀ a ∈ L, a ≤ b := by
  induction L with
  | nil => exact Or.inl rfl
  | cons x L ih =>
    right
    obtain ⟨hx, hL⟩ := List.sorted_cons.mp hs
    rcases ih hL with rfl | ⟨b, hb1, hb2, hb3⟩
    · refine ⟨x, rfl, List.mem_cons_self _ _, ?_⟩
      intro a ha
      rw [List.mem_singleton] at ha
      exact ha.le
    · cases L with
      | nil => cases hb2
      | cons y L' =>
        refine ⟨b, ?_, List.mem_cons_of_mem _ hb2, ?_⟩
        · rw [List.getLast?_cons_cons]
          exact hb1
        · intro a ha
          rcases List.mem_cons.mp ha with rfl | ha'
          · exact (hx b hb2).le
          · exact hb3 a ha'

theorem not_mem_of_head_ne {L : List ℚ} {lo : ℚ} (hs : L.Sorted (· < ·))
    (hmin : ∀ x ∈ L, lo ≤ x) (h : ¬L.head? = some lo) : lo ∉ L := by
  intro hmem
  cases L with
  | nil => cases hmem
  | cons y L' =>
    rcases List.mem_cons.mp hmem with rfl | hmem'
    · exact h rfl
    · have h1 := (List.sorted_cons.mp hs).1 lo hmem'
      have h2 := hmin y (List.mem_cons_self _ _)
      exact absurd (h2.trans_lt h1) (lt_irrefl lo)

theorem not_mem_of_getLast_ne {L : List ℚ} {hi : ℚ} (hs : L.Sorted (· < ·))
    (hmax : ∀ x ∈ L, x ≤ hi) (h : ¬L.getLast? = some hi) : hi ∉ L := by
  intro hmem
  rcases sorted_getLast_max hs with rfl | ⟨b, hb1, hb2, hb3⟩
  · cases hmem
  · have hbhi : b = hi := le_antisymm (hmax b hb2) (hb3 hi hmem)
    exact h (hbhi ▸ hb1)

theorem insert_lo_props {lo hi : ℚ} (hlo : lo < hi) {L : List ℚ}
    (hs : L.Sorted (· < ·)) (hmem : ∀ x ∈ L, lo ≤ x ∧ x ≤ hi)
    (hnotmem : lo ∉ L) :
    (lo :: L).Sorted (· < ·) ∧ lo ∈ lo :: L ∧
      ∀ x ∈ lo :: L, lo ≤ x ∧ x ≤ hi := by
  refine ⟨List.sorted_cons.mpr ⟨?_, hs⟩, List.mem_cons_self _ _, ?_⟩
  · intro b hb
    exact lt_of_le_of_ne (hmem b hb).1 fun he => hnotmem (he ▸ hb)
  · intro x hx
    rcases List.mem_cons.mp hx with rfl | hx'
    · exact ⟨le_refl _, hlo.le⟩
    · exact hmem x hx'

theorem append_hi_props {lo hi : ℚ} (hlo : lo < hi) {L : List ℚ}
    (hs : L.Sorted (· < ·)) (hmem : ∀ x ∈ L, lo ≤ x ∧ x ≤ hi)
    (hnotmem : hi ∉ L) :
    (L ++ [hi]).Sorted (· < ·) ∧ hi ∈ L ++ [hi] ∧
      ∀ x ∈ L ++ [hi], lo ≤ x ∧ x ≤ hi := by
  refine ⟨sorted_append_one hs ?_, List.mem_append_right _ (by simp), ?_⟩
  · intro x hx
    exact lt_of_le_of_ne (hmem x hx).2 fun he => hnotmem (he ▸ hx)
  · intro x hx
    rcases List.mem_append.mp hx with hx' | hx'
    · exact hmem x hx'
    · rw [List.mem_singleton] at hx'
      subst hx'
      exact ⟨hlo.le, le_refl _⟩

theorem force_mem_props {lo hi : ℚ} (hlo : lo < hi) {L : List ℚ}
    (hs : L.Sorted (· < ·)) (hmem : ∀ x ∈ L, lo ≤ x ∧ x ≤ hi) :
    tickProps lo hi (forceHiMem hi (forceLoMem lo L)) := by
  have key1 : (forceLoMem lo L).Sorted (· < ·) ∧ lo ∈ forceLoMem lo L ∧
      ∀ x ∈ forceLoMem lo L, lo ≤ x ∧ x ≤ hi := by
    unfold forceLoMem
    by_cases h : lo ∈ L
    · rw [if_pos h]
      exact ⟨hs, h, hmem⟩
    · rw [if_neg h]
      exact insert_lo_props hlo hs hmem h
  obtain ⟨hs1, hlo1, hmem1⟩ := key1
  have key2 : (forceHiMem hi (forceLoMem lo L)).Sorted (· < ·) ∧
      lo ∈ forceHiMem hi (forceLoMem lo L) ∧
      hi ∈ forceHiMem hi (forceLoMem lo L) ∧
      ∀ x ∈ forceHiMem hi (forceLoMem lo L), lo ≤ x ∧ x ≤ hi := by
    unfold forceHiMem
    by_cases h : hi ∈ forceLoMem lo L
    · rw [if_pos h]
      exact ⟨hs1, hlo1, h, hmem1⟩
    · rw [if_neg h]
      obtain ⟨ha, hb, hc⟩ := append_hi_props hlo hs1 hmem1 h
      exact ⟨ha, List.mem_append_left _ hlo1, hb, hc⟩
  obtain ⟨hs2, hlo2, hhi2, hmem2⟩ := key2
  exact ⟨hs2, List.count_eq_one_of_mem hs2.nodup hlo2,
    List.count_eq_one_of_mem hs2.nodup hhi2, hmem2⟩

theorem force_head_props {lo hi : ℚ} (hlo : lo < hi) {L : List ℚ}
    (hs : L.Sorted (· < ·)) (hmem : ∀ x ∈ L, lo ≤ x ∧ x ≤ hi) :
    tickProps lo hi (forceHiLast hi (forceLoHead lo L)) := by
  have key1 : (forceLoHead lo L).Sorted (· < ·) ∧ lo ∈ forceLoHead lo L ∧
      ∀ x ∈ forceLoHead lo L, lo ≤ x ∧ x ≤ hi := by
    unfold forceLoHead
    by_cases h : L.head? = some lo
    · rw [if_pos h]
      have hmemlo : lo ∈ L := by
        cases L with
        | nil => cases h
        | cons y L' =>
          rw [List.head?_cons, Option.some_inj] at h
          exact h ▸ List.mem_cons_self _ _
      exact ⟨hs, hmemlo, hmem⟩
    · rw [if_neg h]
      exact insert_lo_props hlo hs hmem
        (not_mem_of_head_ne hs (fun x hx => (hmem x hx).1) h)
  obtain ⟨hs1, hlo1, hmem1⟩ := key1
  have key2 : (forceHiLast hi (forceLoHead lo L)).Sorted (· < ·) ∧
      lo ∈ forceHiLast hi (forceLoHead lo L) ∧
      hi ∈ forceHiLast hi (forceLoHead lo L) ∧
      ∀ x ∈ forceHiLast hi (forceLoHead lo L), lo ≤ x ∧ x ≤ hi := by
    unfold forceHiLast
    by_cases h : (forceLoHead lo L).getLast? = some hi
    · rw [if_pos h]
      have hmemhi : hi ∈ forceLoHead lo L := by
        rcases sorted_getLast_max hs1 with he | ⟨b, hb1, hb2, _⟩
        · rw [he] at h
          cases h
        · rw [hb1, Option.some_inj] at h
          exact h ▸ hb2
      exact ⟨hs1, hlo1, hmemhi, hmem1⟩
    · rw [if_neg h]
      obtain ⟨ha, hb, hc⟩ := append_hi_props hlo hs1 hmem1
        (not_mem_of_getLast_ne hs1 (fun x hx => (hmem1 x hx).2) h)
      exact ⟨ha, List.mem_append_left _ hlo1, hb, hc⟩
  obtain ⟨hs2, hlo2, hhi2, hmem2⟩ := key2
  exact ⟨hs2, List.count_eq_one_of_mem hs2.nodup hlo2,
    List.count_eq_one_of_mem hs2.nodup hhi2, hmem2⟩

theorem lo_le_ceil_mul (lo : ℚ) {nice : ℚ} (hn : 0 < nice) :
    lo ≤ (⌈lo / nice⌉ : ℚ) * nice := by
  calc lo = lo / nice * nice := (div_mul_cancel₀ _ hn.ne').symm
  _ ≤ (⌈lo / nice⌉ : ℚ) * nice :=
      mul_le_mul_of_nonneg_right (Int.le_ceil _) hn.le

theorem brokenTicksSeg_props {hint lo hi : ℚ} (hlo : lo < hi)
    (hP : ∀ n : ℤ, (n : ℚ) * nice_step (rawStepOf hint lo hi) ≤ hi + eps →
      (n : ℚ) * nice_step (rawStepOf hint lo hi) ≤ hi) :
    tickProps lo hi
      (brokenTicksSeg hint (Interval.mk (F.fin lo) (F.fin hi))) := by
  have hn := nice_step_pos (rawStepOf hint lo hi)
  simp only [brokenTicksSeg]
  rw [if_neg (not_le.mpr hlo)]
  apply force_mem_props hlo (tickAccum_sorted hn _)
  intro x hx
  obtain ⟨i, h1, h2⟩ := tickAccum_mem hn _ x hx
  constructor
  · have h4 := lo_le_ceil_mul lo hn
    have h3 : (0 : ℚ) ≤ (i : ℚ) * nice_step (rawStepOf hint lo hi) :=
      mul_nonneg (Nat.cast_nonneg i) hn.le
    linarith
  · have hx2 : x = ((⌈lo / nice_step (rawStepOf hint lo hi)⌉ + (i : ℤ) : ℤ) : ℚ)
        * nice_step (rawStepOf hint lo hi) := by
      push_cast
      rw [h1]
      ring
    rw [hx2]
    exact hP _ (by rw [← hx2]; exact h2)

theorem uniformTicksSeg_props {nice lo hi : ℚ} (hn : 0 < nice) (hlo : lo < hi)
    (hP : ∀ n : ℤ, (n : ℚ) * nice ≤ hi + eps → (n : ℚ) * nice ≤ hi) :
    tickProps lo hi
      (uniformTicksSeg nice (Interval.mk (F.fin lo) (F.fin hi))) := by
  simp only [uniformTicksSeg]
  rw [if_neg (not_le.mpr hlo)]
  apply force_head_props hlo (tickIndexed_sorted hn 0)
  intro x hx
  obtain ⟨j, _, h1, h2⟩ := tickIndexed_mem hn 0 x hx
  constructor
  · have h4 := lo_le_ceil_mul lo hn
    have h3 : (0 : ℚ) ≤ (j : ℚ) * nice := mul_nonneg (Nat.cast_nonneg j) hn.le
    rw [h1]
    linarith
  · have hx2 : x = ((⌈lo / nice⌉ + (j : ℤ) : ℤ) : ℚ) * nice := by
      push_cast
      rw [h1]
      ring
    rw [hx2]
    exact hP _ (by rw [← hx2]; exact h2)

theorem le_maxRawFold (hint m : ℚ) (seg : Interval) :
    m ≤ maxRawFold hint m seg := by
  obtain ⟨s, e⟩ := seg
  cases s <;> cases e <;> simp only [maxRawFold] <;> try exact le_refl m
  split_ifs with h1 h2
  · exact le_refl m
  · exact le_of_lt h2
  · exact le_refl m

theorem le_foldl_maxRaw (hint : ℚ) :
    ∀ (segs : List Interval) (m : ℚ),
      m ≤ segs.foldl (maxRawFold hint) m := by
  intro segs
  induction segs with
  | nil => intro m; exact le_refl m
  | cons seg segs ih =>
    intro m
    rw [List.foldl_cons]
    exact (le_maxRawFold hint m seg).trans (ih _)

theorem raw_le_foldl {hint lo hi : ℚ} (hlo : lo < hi) :
    ∀ (segs : List Interval) (m : ℚ),
      Interval.mk (F.fin lo) (F.fin hi) ∈ segs →
      rawStepOf hint lo hi ≤ segs.foldl (maxRawFold hint) m := by
  intro segs
  induction segs with
  | nil => intro m h; cases h
  | cons seg segs ih =>
    intro m h
    rw [List.foldl_cons]
    rcases List.mem_cons.mp h with rfl | h'
    · refine le_trans ?_ (le_foldl_maxRaw hint segs _)
      simp only [maxRawFold]
      rw [if_neg (not_le.mpr hlo)]
      split_ifs with h2
      · exact le_refl _
      · exact not_lt.mp h2
    · exact ih _ h'

theorem maxRawStep_pos (hint : ℚ) {lo hi : ℚ} (hlo : lo < hi)
    {segs : List Interval}
    (h : Interval.mk (F.fin lo) (F.fin hi) ∈ segs) :
    0 < maxRawStep segs hint :=
  lt_of_lt_of_le (rawStepOf_pos hint hlo) (raw_le_foldl hlo segs 0 h)

/-- C1, amended: for positive `step_hint` and a valid segment `[lo, hi]`
(finite bounds, `lo < hi`), the segment's tick list is sorted strictly
ascending, contains `lo` and `hi` each exactly once, and contains no value
outside `[lo, hi]`, PROVIDED no integer multiple of the applicable nice
step lies in the overshoot window `(hi, hi + ε]` (the loop bound is
`t ≤ hi + ε`, so such a multiple would be emitted as a tick beyond `hi`);
this holds for both policy variants. -/
theorem C1_amended (hint : ℚ) (hhint : 0 < hint) :
    (∀ (ax : BrokenXAxis) (i : ℕ) (lo hi : ℚ),
      ax.segments[i]? = some (Interval.mk (F.fin lo) (F.fin hi)) → lo < hi →
      (∀ n : ℤ, (n : ℚ) * nice_step (rawStepOf hint lo hi) ≤ hi + eps →
        (n : ℚ) * nice_step (rawStepOf hint lo hi) ≤ hi) →
      ∃ ts, (ax.segment_ticks hint)[i]? = some ts ∧ tickProps lo hi ts) ∧
    (∀ (ax2 : SegmentedAxis) (i : ℕ) (lo hi : ℚ),
      ax2.segments[i]? = some (Interval.mk (F.fin lo) (F.fin hi)) → lo < hi →
      (∀ n : ℤ,
        (n : ℚ) * nice_step (maxRawStep ax2.segments hint) ≤ hi + eps →
        (n : ℚ) * nice_step (maxRawStep ax2.segments hint) ≤ hi) →
      ∃ ts, (ax2.segment_ticks hint)[i]? = some ts ∧ tickProps lo hi ts) := by
  constructor
  · intro ax i lo hi hseg hlo hP
    refine ⟨brokenTicksSeg hint (Interval.mk (F.fin lo) (F.fin hi)), ?_,
      brokenTicksSeg_props hlo hP⟩
    unfold BrokenXAxis.segment_ticks
    rw [List.getElem?_map, hseg, Option.map_some']
  · intro ax2 i lo hi hseg hlo hP
    have hmem : Interval.mk (F.fin lo) (F.fin hi) ∈ ax2.segments := by
      obtain ⟨hl, he⟩ := List.getElem?_eq_some_iff.mp hseg
      exact he ▸ List.getElem_mem hl
    have hpos := maxRawStep_pos hint hlo hmem
    refine ⟨uniformTicksSeg (nice_step (maxRawStep ax2.segments hint))
        (Interval.mk (F.fin lo) (F.fin hi)), ?_,
      uniformTicksSeg_props (nice_step_pos _) hlo hP⟩
    unfold SegmentedAxis.segment_ticks
    rw [if_neg hpos.ne', List.getElem?_map, hseg, Option.map_some']

/-- C1, counterexample: the broken-axis variant on the valid segment
`[0, 1e-16]` with `step_hint = 1e-20 > 0` picks `nice = 1e-16 < ε`, and the
`t ≤ hi + ε` loop bound emits `2e-16` and `3e-16` — ticks strictly greater
than the segment's `end` — refuting "contains no value outside
`[start, end]` for any `step_hint > 0`". -/
theorem C1_counterexample :
    (0 : ℚ) < 1 / 10 ^ 20 ∧
    brokenTicksSeg (1 / 10 ^ 20)
        (Interval.mk (F.fin 0) (F.fin (1 / 10 ^ 16)))
      = [0, 1 / 10 ^ 16, 2 / 10 ^ 16, 3 / 10 ^ 16] ∧
    (2 / 10 ^ 16 : ℚ) ∈ brokenTicksSeg (1 / 10 ^ 20)
        (Interval.mk (F.fin 0) (F.fin (1 / 10 ^ 16))) ∧
    ¬(2 / 10 ^ 16 : ℚ) ≤ 1 / 10 ^ 16 := by
  have hraw : rawStepOf (1 / 10 ^ 20) 0 (1 / 10 ^ 16) = 1 / 10 ^ 16 := by
    norm_num [rawStepOf, max_def, eps]
  have hnice0 : nice_step ((1 : ℚ) * 10 ^ (-16 : ℤ)) =
      (if (1 : ℚ) < 3 / 2 then 1 else if (1 : ℚ) < 7 / 2 then 2
       else if (1 : ℚ) < 15 / 2 then (5 : ℚ) else 10) * 10 ^ (-16 : ℤ) :=
    nice_step_eval (le_refl 1) (by norm_num) (-16)
  have hnice : nice_step (1 / 10 ^ 16 : ℚ) = 1 / 10 ^ 16 := by
    norm_num at hnice0
    convert hnice0 using 2
  have ht : tickAccum (1 / 10 ^ 16) (1 / 10 ^ 16) 0
      = [0, 1 / 10 ^ 16, 2 / 10 ^ 16, 3 / 10 ^ 16] := by
    rw [tickAccum_step (by norm_num) (by norm_num [eps]),
      tickAccum_step (by norm_num) (by norm_num [eps]),
      tickAccum_step (by norm_num) (by norm_num [eps]),
      tickAccum_step (by norm_num) (by norm_num [eps]),
      tickAccum_stop (by norm_num [eps])]
    norm_num
  have hmain : brokenTicksSeg (1 / 10 ^ 20)
      (Interval.mk (F.fin 0) (F.fin (1 / 10 ^ 16)))
      = [0, 1 / 10 ^ 16, 2 / 10 ^ 16, 3 / 10 ^ 16] := by
    simp only [brokenTicksSeg]
    rw [if_neg (by norm_num : ¬(1 / 10 ^ 16 : ℚ) ≤ 0), hraw, hnice,
      show ((⌈(0 : ℚ) / (1 / 10 ^ 16)⌉ : ℚ) * (1 / 10 ^ 16)) = 0 by norm_num,
      ht]
    norm_num [forceLoMem, forceHiMem, List.mem_cons]
  refine ⟨by norm_num, hmain, ?_, by norm_num⟩
  rw [hmain]
  norm_num [List.mem_cons]

/-- C1 witness: on the single valid segment `[0, 1]` with `step_hint = 1`,
the no-overshoot proviso of the amended claim holds (the nice step is `1`
and no integer lies in `(1, 1 + ε]`), and the broken-axis tick list for
that segment satisfies all the guaranteed properties. -/
theorem C1_witness :
    ((BrokenXAxis.mk [Interval.mk (F.fin 0) (F.fin 1)] 0).segments[0]?
      = some (Interval.mk (F.fin 0) (F.fin 1))) ∧
    (0 : ℚ) < 1 ∧
    ∃ ts, ((BrokenXAxis.mk [Interval.mk (F.fin 0) (F.fin 1)] 0).segment_ticks
        1)[0]? = some ts ∧ tickProps 0 1 ts := by
  refine ⟨rfl, by norm_num, ?_⟩
  apply (C1_amended 1 (by norm_num)).1
    (BrokenXAxis.mk [Interval.mk (F.fin 0) (F.fin 1)] 0) 0 0 1 rfl (by norm_num)
  intro n h
  have hraw : rawStepOf 1 0 1 = 1 := by
    norm_num [rawStepOf, max_def, eps]
  have hnice0 : nice_step ((1 : ℚ) * 10 ^ (0 : ℤ)) =
      (if (1 : ℚ) < 3 / 2 then 1 else if (1 : ℚ) < 7 / 2 then 2
       else if (1 : ℚ) < 15 / 2 then (5 : ℚ) else 10) * 10 ^ (0 : ℤ) :=
    nice_step_eval (le_refl 1) (by norm_num) 0
  have hnice : nice_step (rawStepOf 1 0 1) = 1 := by
    rw [hraw]
    norm_num at hnice0
    exact hnice0
  rw [hnice, mul_one] at h ⊢
  have h2 : (n : ℚ) < 2 := lt_of_le_of_lt h (by norm_num [eps])
  have h3 : n < 2 := by exact_mod_cast h2
  exact_mod_cast (by omega : n ≤ 1)

/-- `ScreenTick` from axis.rs (`screen_x` is a finite `f32`; the projector
discards non-finite values before this stage). -/
structure ScreenTick where
  world_x : ℚ
  screen_x : ℚ
  is_segment_edge : Bool
deriving DecidableEq

/-- `TickCluster` from axis.rs. -/
structure TickCluster where
  screen_x : ℚ
  ticks : List ScreenTick
  has_edge : Bool
deriving DecidableEq

/-- Sort key of `cluster_overlapping_ticks`: ascending by `screen_x` via
`partial_cmp` (total on finite values). -/
def screenLe (a b : ScreenTick) : Prop := a.screen_x ≤ b.screen_x

instance : DecidableRel screenLe :=
  fun a b => inferInstanceAs (Decidable (a.screen_x ≤ b.screen_x))

/-- The sweep of `cluster_overlapping_ticks` over the sorted ticks: fix
`base_x` at the current tick, group every following tick with
`(ticks[i].screen_x - base_x).abs() < px_merge_threshold`, and set
`has_edge` iff any group member `is_segment_edge`. -/
theorem dropWhile_length_le {α : Type} (p : α → Bool) :
    ∀ l : List α, (l.dropWhile p).length ≤ l.length := by
  intro l
  induction l with
  | nil => exact le_refl _
  | cons a l ih =>
    rw [List.dropWhile_cons]
    by_cases hp : p a
    · rw [if_pos hp]
      exact ih.trans (Nat.le_succ _)
    · rw [if_neg hp]

def clusterSweep (thr : ℚ) : List ScreenTick → List TickCluster
  | [] => []
  | t :: rest =>
    { screen_x := t.screen_x,
      ticks := t :: rest.takeWhile fun u => decide (|u.screen_x - t.screen_x| < thr),
      has_edge := (t :: rest.takeWhile fun u =>
        decide (|u.screen_x - t.screen_x| < thr)).any fun u => u.is_segment_edge } ::
    clusterSweep thr (rest.dropWhile fun u => decide (|u.screen_x - t.screen_x| < thr))
termination_by l => l.length
decreasing_by
  exact Nat.lt_succ_of_le (dropWhile_length_le _ _)

theorem clusterSweep_nil (thr : ℚ) : clusterSweep thr [] = [] := by
  rw [clusterSweep]

/-- `cluster_overlapping_ticks` from axis.rs: defensive sort by `screen_x`,
then the leader-based sweep. -/
def cluster_overlapping_ticks (ticks : List ScreenTick)
    (px_merge_threshold : ℚ) : List TickCluster :=
  clusterSweep px_merge_threshold (ticks.insertionSort screenLe)

/-- Concatenation of the clusters' tick groups, in order. -/
def clustersTicks (cs : List TickCluster) : List ScreenTick :=
  cs.foldr (fun c acc => c.ticks ++ acc) []

theorem clusterSweep_join (thr : ℚ) :
    ∀ L : List ScreenTick, clustersTicks (clusterSweep thr L) = L := by
  intro L
  match L with
  | [] => rw [clusterSweep_nil]; rfl
  | t :: rest =>
    rw [clusterSweep]
    show (t :: rest.takeWhile _) ++ clustersTicks (clusterSweep thr _) = _
    rw [clusterSweep_join thr (rest.dropWhile fun u =>
      decide (|u.screen_x - t.screen_x| < thr))]
    rw [List.cons_append, List.takeWhile_append_dropWhile]
termination_by L => L.length
decreasing_by
  exact Nat.lt_succ_of_le (dropWhile_length_le _ _)

theorem clusterSweep_shape (thr : ℚ) :
    ∀ L : List ScreenTick, ∀ c ∈ clusterSweep thr L,
      c.ticks ≠ [] ∧ (∃ t, c.ticks.head? = some t ∧ c.screen_x = t.screen_x) ∧
      c.has_edge = c.ticks.any fun u => u.is_segment_edge := by
  intro L
  match L with
  | [] =>
    intro c hc
    rw [clusterSweep_nil] at hc
    cases hc
  | t :: rest =>
    intro c hc
    rw [clusterSweep] at hc
    rcases List.mem_cons.mp hc with rfl | hc'
    · exact ⟨by simp, ⟨t, rfl, rfl⟩, rfl⟩
    · exact clusterSweep_shape thr _ c hc'
termination_by L => L.length
decreasing_by
  exact Nat.lt_succ_of_le (dropWhile_length_le _ _)

theorem head_dropWhile_false {α : Type} (p : α → Bool) :
    ∀ (l : List α) (x : α), (l.dropWhile p).head? = some x → p x = false := by
  intro l
  induction l with
  | nil => intro x h; cases h
  | cons a l ih =>
    intro x h
    rw [List.dropWhile_cons] at h
    by_cases hp : p a
    · rw [if_pos hp] at h
      exact ih x h
    · rw [if_neg hp] at h
      rw [List.head?_cons, Option.some_inj] at h
      subst h
      exact eq_false_of_ne_true hp

theorem clusterSweep_chain (thr : ℚ) :
    ∀ L : List ScreenTick,
      (clusterSweep thr L).Chain' fun a b => thr ≤ |b.screen_x - a.screen_x| := by
  intro L
  match L with
  | [] =>
    rw [clusterSweep_nil]
    exact List.chain'_nil
  | t :: rest =>
    rw [clusterSweep]
    refine List.chain'_cons'.mpr ⟨?_, clusterSweep_chain thr _⟩
    cases hd : rest.dropWhile fun u => decide (|u.screen_x - t.screen_x| < thr) with
    | nil =>
      rw [clusterSweep_nil]
      intro y hy
      simp at hy
    | cons u drop' =>
      rw [clusterSweep]
      intro y hy
      rw [List.head?_cons, Option.mem_def, Option.some_inj] at hy
      subst hy
      have hfalse : (decide (|u.screen_x - t.screen_x| < thr)) = false := by
        apply head_dropWhile_false
          (fun u => decide (|u.screen_x - t.screen_x| < thr)) rest
        rw [hd, List.head?_cons]
      simp only [decide_eq_false_iff_not, not_lt] at hfalse
      simpa using hfalse
termination_by L => L.length
decreasing_by
  exact Nat.lt_succ_of_le (dropWhile_length_le _ _)

instance : IsTotal ScreenTick screenLe :=
  ⟨fun a b => le_total a.screen_x b.screen_x⟩

instance : IsTrans ScreenTick screenLe :=
  ⟨fun _ _ _ h1 h2 => h1.trans h2⟩

/-- C10: the clusters partition the input — their concatenation is exactly
the input sorted ascending by `screen_x` (a permutation of the input, so
every tick lands in exactly one cluster); every cluster is non-empty with
its anchor equal to its first member's `screen_x`; and consecutive cluster
anchors differ by at least the threshold. -/
theorem C10_cluster_partition (ticks : List ScreenTick) (thr : ℚ)
    (hthr : 0 < thr) :
    clustersTicks (cluster_overlapping_ticks ticks thr)
      = ticks.insertionSort screenLe ∧
    (ticks.insertionSort screenLe).Perm ticks ∧
    (ticks.insertionSort screenLe).Sorted screenLe ∧
    (∀ x, (clustersTicks (cluster_overlapping_ticks ticks thr)).count x
      = ticks.count x) ∧
    (∀ c ∈ cluster_overlapping_ticks ticks thr,
      c.ticks ≠ [] ∧ ∃ t, c.ticks.head? = some t ∧ c.screen_x = t.screen_x) ∧
    (cluster_overlapping_ticks ticks thr).Chain'
      (fun a b => thr ≤ |b.screen_x - a.screen_x|) := by
  refine ⟨clusterSweep_join thr _, List.perm_insertionSort _ _,
    List.sorted_insertionSort _ _, ?_, ?_, clusterSweep_chain thr _⟩
  · intro x
    unfold cluster_overlapping_ticks
    rw [clusterSweep_join thr _]
    exact (List.perm_insertionSort screenLe ticks).count_eq x
  · intro c hc
    obtain ⟨h1, h2, _⟩ := clusterSweep_shape thr _ c hc
    exact ⟨h1, h2⟩

/-- C10 witness: at a concrete two-tick input with threshold `2` the
consecutive-anchor separation holds. -/
theorem C10_witness :
    (0 : ℚ) < 2 ∧
    (cluster_overlapping_ticks
        [ScreenTick.mk 5 5 false, ScreenTick.mk 0 0 true] 2).Chain'
      (fun a b => 2 ≤ |b.screen_x - a.screen_x|) :=
  ⟨by norm_num,
    (C10_cluster_partition [ScreenTick.mk 5 5 false, ScreenTick.mk 0 0 true] 2
      (by norm_num)).2.2.2.2.2⟩

theorem clusterSweep_singletons (thr : ℚ) :
    ∀ ts : List ScreenTick,
      ts.Pairwise (fun a b => thr < |a.screen_x - b.screen_x|) →
      clusterSweep thr ts
        = ts.map fun u => TickCluster.mk u.screen_x [u] u.is_segment_edge := by
  intro ts
  induction ts with
  | nil => intro _; rw [clusterSweep_nil]; rfl
  | cons t rest ih =>
    intro hp
    obtain ⟨hhead, htail⟩ := List.pairwise_cons.mp hp
    rw [clusterSweep]
    have hfar : ∀ u rest', rest = u :: rest' →
        ¬(|u.screen_x - t.screen_x| < thr) := by
      intro u rest' he
      have h1 := hhead u (he ▸ List.mem_cons_self u rest')
      rw [abs_sub_comm]
      exact not_lt.mpr h1.le
    have htake : (rest.takeWhile fun u =>
        decide (|u.screen_x - t.screen_x| < thr)) = [] := by
      cases rest with
      | nil => rfl
      | cons u rest' =>
        rw [List.takeWhile_cons]
        simp [hfar u rest' rfl]
    have hdrop : (rest.dropWhile fun u =>
        decide (|u.screen_x - t.screen_x| < thr)) = rest := by
      cases rest with
      | nil => rfl
      | cons u rest' =>
        rw [List.dropWhile_cons]
        simp [hfar u rest' rfl]
    rw [htake, hdrop, ih htail, List.map_cons]
    simp

/-- C3, counterexample: two ticks whose screen distance equals the
threshold exactly.  The distance does not exceed `threshold_px`, so the
claim's sweep rule appends the second tick to the first cluster; the code
compares with `< px_merge_threshold` and instead starts a new cluster,
producing two singleton clusters. -/
theorem C3_counterexample :
    |(ScreenTick.mk 6 6 false).screen_x - (ScreenTick.mk 0 0 false).screen_x|
      ≤ 6 ∧
    cluster_overlapping_ticks
        [ScreenTick.mk 0 0 false, ScreenTick.mk 6 6 false] 6
      = [TickCluster.mk 0 [ScreenTick.mk 0 0 false] false,
         TickCluster.mk 6 [ScreenTick.mk 6 6 false] false] := by
  refine ⟨by norm_num, ?_⟩
  unfold cluster_overlapping_ticks
  rw [List.Sorted.insertionSort_eq (by decide :
    ([ScreenTick.mk 0 0 false, ScreenTick.mk 6 6 false]).Sorted screenLe)]
  rw [clusterSweep]
  rw [show (List.takeWhile
      (fun u => decide (|u.screen_x - (ScreenTick.mk 0 0 false).screen_x| < 6))
      [ScreenTick.mk 6 6 false]) = [] by
    norm_num [List.takeWhile_cons]]
  rw [show (List.dropWhile
      (fun u => decide (|u.screen_x - (ScreenTick.mk 0 0 false).screen_x| < 6))
      [ScreenTick.mk 6 6 false]) = [ScreenTick.mk 6 6 false] by
    norm_num [List.dropWhile_cons]]
  rw [clusterSweep]
  rw [show (List.takeWhile
      (fun u => decide (|u.screen_x - (ScreenTick.mk 6 6 false).screen_x| < 6))
      ([] : List ScreenTick)) = [] from rfl]
  rw [show (List.dropWhile
      (fun u => decide (|u.screen_x - (ScreenTick.mk 6 6 false).screen_x| < 6))
      ([] : List ScreenTick)) = [] from rfl]
  rw [clusterSweep_nil]
  decide

/-- C3, amended: with the boundary read as the code implements it (a tick
at distance `≥ threshold_px` from the cluster's first member starts a new
cluster, a tick strictly within the threshold is appended): feeding
screen-sorted ticks all strictly within `threshold_px` of the first tick
yields exactly one cluster containing all of them; feeding ticks pairwise
strictly more than `threshold_px` apart yields all singleton clusters; and
every cluster's `has_edge` is true iff some member `is_segment_edge`. -/
theorem C3_amended :
    (∀ (thr : ℚ) (t : ScreenTick) (rest : List ScreenTick),
      (t :: rest).Sorted screenLe →
      (∀ u ∈ t :: rest, |u.screen_x - t.screen_x| < thr) →
      cluster_overlapping_ticks (t :: rest) thr
        = [TickCluster.mk t.screen_x (t :: rest)
            ((t :: rest).any fun u => u.is_segment_edge)]) ∧
    (∀ (thr : ℚ) (ts : List ScreenTick), ts.Sorted screenLe →
      ts.Pairwise (fun a b => thr < |a.screen_x - b.screen_x|) →
      cluster_overlapping_ticks ts thr
        = ts.map fun u => TickCluster.mk u.screen_x [u] u.is_segment_edge) ∧
    (∀ (thr : ℚ) (ts : List ScreenTick),
      ∀ c ∈ cluster_overlapping_ticks ts thr,
        c.has_edge = c.ticks.any fun u => u.is_segment_edge) := by
  refine ⟨?_, ?_, ?_⟩
  · intro thr t rest hs hall
    unfold cluster_overlapping_ticks
    rw [List.Sorted.insertionSort_eq hs, clusterSweep]
    have htake : (rest.takeWhile fun u =>
        decide (|u.screen_x - t.screen_x| < thr)) = rest := by
      rw [List.takeWhile_eq_self_iff]
      intro x hx
      simp only [decide_eq_true_eq]
      exact hall x (List.mem_cons_of_mem _ hx)
    have hdrop : (rest.dropWhile fun u =>
        decide (|u.screen_x - t.screen_x| < thr)) = [] := by
      rw [List.dropWhile_eq_nil_iff]
      intro x hx
      simp only [decide_eq_true_eq]
      exact hall x (List.mem_cons_of_mem _ hx)
    rw [htake, hdrop, clusterSweep_nil]
  · intro thr ts hs hp
    unfold cluster_overlapping_ticks
    rw [List.Sorted.insertionSort_eq hs]
    exact clusterSweep_singletons thr ts hp
  · intro thr ts c hc
    exact (clusterSweep_shape thr _ c hc).2.2

/-- C3 witness: two sorted ticks strictly within the threshold merge into
one cluster whose `has_edge` reflects its members. -/
theorem C3_witness :
    ([ScreenTick.mk 0 0 false, ScreenTick.mk 1 1 true].Sorted screenLe) ∧
    (∀ u ∈ [ScreenTick.mk 0 0 false, ScreenTick.mk 1 1 true],
      |u.screen_x - (ScreenTick.mk 0 0 false).screen_x| < 6) ∧
    cluster_overlapping_ticks
        [ScreenTick.mk 0 0 false, ScreenTick.mk 1 1 true] 6
      = [TickCluster.mk 0 [ScreenTick.mk 0 0 false, ScreenTick.mk 1 1 true]
          true] :=
  ⟨by decide, by norm_num [List.forall_mem_cons],
    by
      have h := C3_amended.1 6 (ScreenTick.mk 0 0 false)
        [ScreenTick.mk 1 1 true] (by decide)
        (by norm_num [List.forall_mem_cons])
      simpa using h⟩

/-- `TickSide` from axis.rs. -/
inductive TickSide where
  | left : TickSide
  | right : TickSide
  | center : TickSide
deriving DecidableEq

/-- One emitted text label: position of its top-left corner and its
measured size. -/
structure Label where
  x : ℚ
  y : ℚ
  w : ℚ
  h : ℚ
deriving DecidableEq

/-- Abstracted collaborators of the multi-segment branch of
`AxisWidget::add_tick_labels` (axis.rs): the caller-supplied formatter as a
function of the tick's world value (the `GridMark` step and axis range are
fixed for the whole call), text measurement (`painter.layout_no_wrap`,
returning width and height), the axis rect, and `label_spacing.min`.  The
model fixes `VPlacement::Bottom`, so every label's `y` is `rect.min.y`. -/
structure LabelCtx where
  fmt : ℚ → String
  measure : String → ℚ × ℚ
  rect_min_x : ℚ
  rect_max_x : ℚ
  rect_min_y : ℚ
  spacing_min : ℚ

/-- Sort key of the within-cluster sort: ascending by `world_x` via
`partial_cmp` (total on finite values). -/
def worldLe (a b : ScreenTick) : Prop := a.world_x ≤ b.world_x

instance : DecidableRel worldLe :=
  fun a b => inferInstanceAs (Decidable (a.world_x ≤ b.world_x))

/-- `label_pos_x` from axis.rs: center, or offset 2 px to the side. -/
def labelPosX (ctx : LabelCtx) (tick : ScreenTick) (side : TickSide) : ℚ :=
  match side with
  | TickSide.center => tick.screen_x - (ctx.measure (ctx.fmt tick.world_x)).1 / 2
  | TickSide.left => tick.screen_x - (ctx.measure (ctx.fmt tick.world_x)).1 - 2
  | TickSide.right => tick.screen_x + 2

/-- The per-tick body of the cluster loop: empty formatter output skips the
tick; fully off-screen labels (right edge left of the rect, or left edge
right of the rect) are dropped; otherwise the label is drawn. -/
def drawTick (ctx : LabelCtx) (tick : ScreenTick) (side : TickSide) :
    Option Label :=
  if ctx.fmt tick.world_x = "" then none
  else if labelPosX ctx tick side + (ctx.measure (ctx.fmt tick.world_x)).1
      < ctx.rect_min_x then none
  else if labelPosX ctx tick side > ctx.rect_max_x then none
  else some (Label.mk (labelPosX ctx tick side) ctx.rect_min_y
    (ctx.measure (ctx.fmt tick.world_x)).1
    (ctx.measure (ctx.fmt tick.world_x)).2)

/-- The per-cluster body: sort members by `world_x`; a single member gets a
centered label, otherwise the two extremes get left/right labels.  (For an
empty cluster the source would panic in `.expect`; clusters from the
sweep are never empty, and the model returns no labels.) -/
def drawCluster (ctx : LabelCtx) (cluster : TickCluster) : List Label :=
  ((match cluster.ticks.insertionSort worldLe with
    | [] => []
    | [a] => [(a, TickSide.center)]
    | a :: rest => [(a, TickSide.left), (rest.getLastD a, TickSide.right)]
    : List (ScreenTick × TickSide))).filterMap fun p => drawTick ctx p.1 p.2

/-- The skip rule: a cluster with no segment edge whose anchor is within
`label_spacing.min` of the previously processed (non-skipped) cluster's
anchor is skipped entirely. -/
def skipCluster (ctx : LabelCtx) (last_drawn : Option ℚ)
    (c : TickCluster) : Bool :=
  !c.has_edge && match last_drawn with
    | some prev => decide (|c.screen_x - prev| < ctx.spacing_min)
    | none => false

/-- The cluster loop of the multi-segment branch, threading
`last_drawn_center_x` (updated to the anchor of every non-skipped cluster,
whether or not any of its labels survived the empty-text and clipping
filters). -/
def labelsLoop (ctx : LabelCtx) :
    Option ℚ → List TickCluster → List Label
  | _, [] => []
  | last_drawn, c :: rest =>
    if skipCluster ctx last_drawn c then labelsLoop ctx last_drawn rest
    else drawCluster ctx c ++ labelsLoop ctx (some c.screen_x) rest

/-- The multi-segment X-axis branch of `AxisWidget::add_tick_labels`:
returns the labels actually drawn, in order. -/
def addTickLabelsSegmented (ctx : LabelCtx)
    (clusters : List TickCluster) : List Label :=
  labelsLoop ctx none clusters

/-- Two label rectangles overlap iff their interiors intersect. -/
def overlaps (a b : Label) : Prop :=
  a.x < b.x + b.w ∧ b.x < a.x + a.w ∧ a.y < b.y + b.h ∧ b.y < a.y + a.h

instance : ∀ a b : Label, Decidable (overlaps a b) := fun a b =>
  inferInstanceAs (Decidable (_ ∧ _ ∧ _ ∧ _))

theorem skipCluster_none (ctx : LabelCtx) (c : TickCluster) :
    skipCluster ctx none c = false := by
  simp [skipCluster]

theorem skipCluster_some {ctx : LabelCtx} {p : ℚ} {c : TickCluster} :
    skipCluster ctx (some p) c = true ↔
      c.has_edge = false ∧ |c.screen_x - p| < ctx.spacing_min := by
  simp [skipCluster]

theorem drawCluster_single (ctx : LabelCtx) (c : TickCluster)
    (t : ScreenTick) (hc : c.ticks = [t]) (ht : t.screen_x = c.screen_x) :
    drawCluster ctx c = [] ∨
      drawCluster ctx c
        = [Label.mk (c.screen_x - (ctx.measure (ctx.fmt t.world_x)).1 / 2)
            ctx.rect_min_y (ctx.measure (ctx.fmt t.world_x)).1
            (ctx.measure (ctx.fmt t.world_x)).2] := by
  have hdc : drawCluster ctx c
      = [(t, TickSide.center)].filterMap fun p => drawTick ctx p.1 p.2 := by
    unfold drawCluster
    rw [hc]
    rfl
  rw [hdc]
  simp only [List.filterMap_cons, List.filterMap_nil]
  unfold drawTick
  split_ifs with h1 h2 h3
  · exact Or.inl rfl
  · exact Or.inl rfl
  · exact Or.inl rfl
  · right
    simp [labelPosX, ht]

theorem labelsLoop_sep (ctx : LabelCtx) :
    ∀ (clusters : List TickCluster) (p : Option ℚ),
      clusters.Pairwise (fun a b => a.screen_x < b.screen_x) →
      (∀ c ∈ clusters, c.has_edge = false ∧
        ∃ t, c.ticks = [t] ∧ t.screen_x = c.screen_x) →
      (∀ c ∈ clusters, ∀ t ∈ c.ticks,
        (ctx.measure (ctx.fmt t.world_x)).1 < ctx.spacing_min) →
      (∀ prev ∈ p, ∀ c ∈ clusters, prev < c.screen_x) →
      (labelsLoop ctx p clusters).Pairwise (fun a b => ¬overlaps a b) ∧
      ∀ prev ∈ p, ∀ l ∈ labelsLoop ctx p clusters,
        prev + ctx.spacing_min / 2 < l.x := by
  intro clusters
  induction clusters with
  | nil =>
    intro p _ _ _ _
    exact ⟨List.Pairwise.nil, by intro prev _ l hl; cases hl⟩
  | cons c rest ih =>
    intro p hinc hsingle hwidth hprev
    obtain ⟨hedge, t, hct, hts⟩ := hsingle c (List.mem_cons_self _ _)
    have hheadlt := (List.pairwise_cons.mp hinc).1
    have hinc' := (List.pairwise_cons.mp hinc).2
    have hsingle' : ∀ x ∈ rest, x.has_edge = false ∧
        ∃ u, x.ticks = [u] ∧ u.screen_x = x.screen_x :=
      fun x hx => hsingle x (List.mem_cons_of_mem _ hx)
    have hwidth' : ∀ x ∈ rest, ∀ u ∈ x.ticks,
        (ctx.measure (ctx.fmt u.world_x)).1 < ctx.spacing_min :=
      fun x hx => hwidth x (List.mem_cons_of_mem _ hx)
    have hw : (ctx.measure (ctx.fmt t.world_x)).1 < ctx.spacing_min :=
      hwidth c (List.mem_cons_self _ _) t (hct ▸ List.mem_cons_self t [])
    by_cases hskip : skipCluster ctx p c = true
    · rw [show labelsLoop ctx p (c :: rest) = labelsLoop ctx p rest by
        simp only [labelsLoop]; rw [if_pos hskip]]
      exact ih p hinc' hsingle' hwidth'
        (fun prev hp x hx => hprev prev hp x (List.mem_cons_of_mem _ hx))
    · rw [show labelsLoop ctx p (c :: rest)
          = drawCluster ctx c ++ labelsLoop ctx (some c.screen_x) rest by
        simp only [labelsLoop]; rw [if_neg hskip]]
      have hprev' : ∀ prev ∈ (some c.screen_x : Option ℚ), ∀ x ∈ rest,
          prev < x.screen_x := by
        intro prev hp x hx
        rw [Option.mem_def, Option.some_inj] at hp
        exact hp ▸ hheadlt x hx
      obtain ⟨ihpw, ihsep⟩ := ih (some c.screen_x) hinc' hsingle' hwidth' hprev'
      have hcx : c.screen_x ∈ (some c.screen_x : Option ℚ) := rfl
      rcases drawCluster_single ctx c t hct hts with hdc | hdc
      · rw [hdc, List.nil_append]
        refine ⟨ihpw, ?_⟩
        intro prev hp l hl
        have h1 := ihsep c.screen_x hcx l hl
        have h2 : prev < c.screen_x := hprev prev hp c (List.mem_cons_self _ _)
        linarith
      · rw [hdc, List.singleton_append]
        constructor
        · refine List.pairwise_cons.mpr ⟨?_, ihpw⟩
          intro b hb hov
          have h1 := ihsep c.screen_x hcx b hb
          have h2 : b.x < c.screen_x - (ctx.measure (ctx.fmt t.world_x)).1 / 2
              + (ctx.measure (ctx.fmt t.world_x)).1 := hov.2.1
          linarith
        · intro prev hp l hl
          have h2 : prev < c.screen_x := hprev prev hp c (List.mem_cons_self _ _)
          have h3 : ¬(|c.screen_x - prev| < ctx.spacing_min) := by
            intro habs
            rw [Option.mem_def] at hp
            rw [hp] at hskip
            exact hskip (skipCluster_some.mpr ⟨hedge, habs⟩)
          have h4 : ctx.spacing_min ≤ c.screen_x - prev := by
            have h5 := not_lt.mp h3
            rwa [abs_of_pos (by linarith : (0 : ℚ) < c.screen_x - prev)] at h5
          rcases List.mem_cons.mp hl with rfl | hl'
          · show prev + ctx.spacing_min / 2
              < c.screen_x - (ctx.measure (ctx.fmt t.world_x)).1 / 2
            linarith
          · have h1 := ihsep c.screen_x hcx l hl'
            linarith

/-- C4, amended: (1) a cluster with no segment edge whose anchor is within
`label_spacing.min` of the previously processed non-skipped cluster's
anchor draws nothing (the loop state is unchanged); (2) a cluster
containing a segment edge is never skipped by the spacing rule; (3) when
every cluster is edge-free and single-membered (anchored at its member)
and `label_spacing.min` exceeds every measured label width, no two emitted
labels overlap.  The unrestricted no-overlap statement of the claim is
false: edge clusters bypass the spacing rule (see the counterexample). -/
theorem C4_label_placement :
    (∀ (ctx : LabelCtx) (p : ℚ) (c : TickCluster) (rest : List TickCluster),
      c.has_edge = false → |c.screen_x - p| < ctx.spacing_min →
      labelsLoop ctx (some p) (c :: rest) = labelsLoop ctx (some p) rest) ∧
    (∀ (ctx : LabelCtx) (last_drawn : Option ℚ) (c : TickCluster)
        (rest : List TickCluster),
      c.has_edge = true →
      labelsLoop ctx last_drawn (c :: rest)
        = drawCluster ctx c ++ labelsLoop ctx (some c.screen_x) rest) ∧
    (∀ (ctx : LabelCtx) (clusters : List TickCluster),
      clusters.Pairwise (fun a b => a.screen_x < b.screen_x) →
      (∀ c ∈ clusters, c.has_edge = false ∧
        ∃ t, c.ticks = [t] ∧ t.screen_x = c.screen_x) →
      (∀ c ∈ clusters, ∀ t ∈ c.ticks,
        (ctx.measure (ctx.fmt t.world_x)).1 < ctx.spacing_min) →
      (addTickLabelsSegmented ctx clusters).Pairwise
        fun a b => ¬overlaps a b) := by
  refine ⟨?_, ?_, ?_⟩
  · intro ctx p c rest h1 h2
    simp only [labelsLoop]
    rw [if_pos (skipCluster_some.mpr ⟨h1, h2⟩)]
  · intro ctx last_drawn c rest h1
    simp only [labelsLoop]
    rw [if_neg (by simp [skipCluster, h1])]
  · intro ctx clusters hinc hsingle hwidth
    exact (labelsLoop_sep ctx clusters none hinc hsingle hwidth
      (by intro prev hp; cases hp)).1

/-- C4 witness: a concrete edge-free cluster within `label_spacing.min` of
the previously drawn anchor is skipped entirely. -/
theorem C4_witness :
    (TickCluster.mk 8 [ScreenTick.mk 8 8 false] false).has_edge = false ∧
    |(TickCluster.mk 8 [ScreenTick.mk 8 8 false] false).screen_x - 0|
      < (LabelCtx.mk (fun _ => "x") (fun _ => ((10 : ℚ), (5 : ℚ)))
          (-100) 100 0 100).spacing_min ∧
    labelsLoop (LabelCtx.mk (fun _ => "x") (fun _ => ((10 : ℚ), (5 : ℚ)))
        (-100) 100 0 100) (some 0)
        [TickCluster.mk 8 [ScreenTick.mk 8 8 false] false]
      = labelsLoop (LabelCtx.mk (fun _ => "x") (fun _ => ((10 : ℚ), (5 : ℚ)))
        (-100) 100 0 100) (some 0) [] :=
  ⟨rfl, by norm_num,
    C4_label_placement.1
      (LabelCtx.mk (fun _ => "x") (fun _ => ((10 : ℚ), (5 : ℚ)))
        (-100) 100 0 100) 0
      (TickCluster.mk 8 [ScreenTick.mk 8 8 false] false) [] rfl (by norm_num)⟩

/-- C4, counterexample: two single-tick clusters both containing segment
edges, anchored 8 px apart (a legitimate clusterer output for threshold
6 px).  With `label_spacing.min = 100` far above the uniform label width
10, both clusters draw centered labels — edge clusters are never skipped —
and the two label rectangles overlap. -/
theorem C4_counterexample :
    cluster_overlapping_ticks
        [ScreenTick.mk 0 0 true, ScreenTick.mk 8 8 true] 6
      = [TickCluster.mk 0 [ScreenTick.mk 0 0 true] true,
         TickCluster.mk 8 [ScreenTick.mk 8 8 true] true] ∧
    (10 : ℚ) < 100 ∧
    addTickLabelsSegmented
        (LabelCtx.mk (fun _ => "x") (fun _ => ((10 : ℚ), (5 : ℚ)))
          (-100) 100 0 100)
        [TickCluster.mk 0 [ScreenTick.mk 0 0 true] true,
         TickCluster.mk 8 [ScreenTick.mk 8 8 true] true]
      = [Label.mk (-5) 0 10 5, Label.mk 3 0 10 5] ∧
    overlaps (Label.mk (-5) 0 10 5) (Label.mk 3 0 10 5) := by
  refine ⟨?_, by norm_num, ?_, by norm_num [overlaps]⟩
  · unfold cluster_overlapping_ticks
    rw [List.Sorted.insertionSort_eq (by decide :
      ([ScreenTick.mk 0 0 true, ScreenTick.mk 8 8 true]).Sorted screenLe)]
    rw [clusterSweep]
    rw [show (List.takeWhile
        (fun u => decide (|u.screen_x - (ScreenTick.mk 0 0 true).screen_x| < 6))
        [ScreenTick.mk 8 8 true]) = [] by
      norm_num [List.takeWhile_cons]]
    rw [show (List.dropWhile
        (fun u => decide (|u.screen_x - (ScreenTick.mk 0 0 true).screen_x| < 6))
        [ScreenTick.mk 8 8 true]) = [ScreenTick.mk 8 8 true] by
      norm_num [List.dropWhile_cons]]
    rw [clusterSweep]
    rw [show (List.takeWhile
        (fun u => decide (|u.screen_x - (ScreenTick.mk 8 8 true).screen_x| < 6))
        ([] : List ScreenTick)) = [] from rfl]
    rw [show (List.dropWhile
        (fun u => decide (|u.screen_x - (ScreenTick.mk 8 8 true).screen_x| < 6))
        ([] : List ScreenTick)) = [] from rfl]
    rw [clusterSweep_nil]
    decide
  · simp only [addTickLabelsSegmented, labelsLoop, skipCluster, drawCluster,
      drawTick, labelPosX, List.insertionSort, List.orderedInsert,
      List.filterMap_cons, List.filterMap_nil]
    norm_num
    simp only [if_neg (show ¬(("x" : String) = "") from by decide)]
    rfl

end EguiPlot

